import Mathlib

/-! bfs6: breadth-first search with a Boolean semiring

A shallow embedding of `GraphBLAS/Demo/Source/bfs6.c`.  Sparse vectors and
matrices are finite maps from indices to optional values (an absent entry is
not in the pattern).  The GraphBLAS primitives that `bfs6` calls are modelled
with the semantics of the GraphBLAS C API (valued mask, complement, replace,
accumulator); `bfs6` itself follows the source statement by statement,
including the fact that it checks no return code.

Machine integers: `int32_t` values are integers wrapped into
`[-2^31, 2^31)`; `GrB_Index` values are naturals below `2^64`.
-/

namespace GraphOne

/-! ## Machine integers -/

/-- Largest value of `int32_t`. -/
def INT32_MAX : Int := 2147483647

/-- Largest dimension of a GraphBLAS object (`GxB_INDEX_MAX`, 2^60). -/
def GxB_INDEX_MAX : Nat := 1152921504606846976

/-- Two's-complement wrap of an integer into the range of `int32_t`. -/
def wrap32 (z : Int) : Int := (z + 2147483648) % 4294967296 - 2147483648

/-- Conversion of an `int32_t` to `GrB_Index` (`uint64_t`), as the usual
arithmetic conversions do in the comparison `level <= n`. -/
def toU64 (z : Int) : Nat := (z % 18446744073709551616).toNat

/-! ## GraphBLAS objects -/

/-- Return codes of the primitives used by `bfs6`. -/
inductive GrB_Info where
  | GrB_SUCCESS
  | GrB_INVALID_INDEX
  | GrB_DIMENSION_MISMATCH
  deriving DecidableEq, Repr

/-- Sparse vector of length `n`: `x i = none` when `i` is not in the pattern. -/
structure GrB_Vector (α : Type) where
  n : Nat
  x : Nat → Option α

/-- Sparse matrix held by row: `x i j = none` when `(i, j)` is not in the
pattern.  Values are integers; a Boolean matrix holds `1` for `true`. -/
structure GrB_Matrix where
  nrows : Nat
  ncols : Nat
  x : Nat → Nat → Option Int

/-- Descriptor fields that `bfs6` sets: `GrB_MASK = GrB_COMP` and
`GrB_OUTP = GrB_REPLACE`. -/
structure GrB_Descriptor where
  mask_comp : Bool
  outp_replace : Bool

/-- Commutative monoid over `bool`. -/
structure GrB_Monoid where
  op : Bool → Bool → Bool
  identity : Bool

/-- Semiring over `bool`: an additive monoid and a multiply operator. -/
structure GrB_Semiring where
  add : GrB_Monoid
  mul : Bool → Bool → Bool

/-! ## Primitives

The storage engine is outside `src/`; each primitive below follows the
GraphBLAS C API.  A primitive that rejects its arguments returns an error
code and leaves its output object untouched. -/

/-- Modelled from the spec: `GrB_Matrix_nrows` (library code outside `src/`),
"query the row count of a sparse structure". -/
def GrB_Matrix_nrows (A : GrB_Matrix) : Nat := A.nrows

/-- Modelled from the spec: `GrB_Vector_new` (library code outside `src/`),
"allocate a sparse vector of a given length"; the new vector has no entry. -/
def GrB_Vector_new (α : Type) (n : Nat) : GrB_Vector α := ⟨n, fun _ => none⟩

/-- Modelled from the spec: `GrB_Vector_nvals` (library code outside `src/`),
the number of explicit entries of a vector. -/
def GrB_Vector_nvals {α : Type} (v : GrB_Vector α) : Nat :=
  ((List.range v.n).filter (fun i => (v.x i).isSome)).length

/-- Modelled from the spec: `GrB_Vector_setElement` (library code outside
`src/`), "set a single explicit element in a sparse vector by index"; an index
outside `[0, n)` is rejected with `GrB_INVALID_INDEX`. -/
def GrB_Vector_setElement_BOOL (w : GrB_Vector Bool) (val : Bool) (i : Nat) :
    Except GrB_Info (GrB_Vector Bool) :=
  if i < w.n then .ok ⟨w.n, fun j => if j = i then some val else w.x j⟩
  else .error .GrB_INVALID_INDEX

/-- Value of the mask at position `i`: with no mask every position is
selected; a mask entry is typecast to `bool` (an absent entry is `false`);
`GrB_COMP` complements the result. -/
def maskAt (mask : Option (GrB_Vector Int)) (comp : Bool) (i : Nat) : Bool :=
  match mask with
  | none => !comp
  | some m =>
    xor comp (match m.x i with
      | some z => z != 0
      | none => false)

/-- The step `Z = accum (w, T)` of every GraphBLAS operation: without an
accumulator `Z = T`; with one, `Z` is the union of the patterns and the
operator is applied where both have an entry. -/
def accumulate {α : Type} (accum : Option (α → α → α)) (w T : Nat → Option α) :
    Nat → Option α :=
  match accum with
  | none => T
  | some f => fun i =>
    match w i, T i with
    | some a, some b => some (f a b)
    | some a, none => some a
    | none, some b => some b
    | none, none => none

/-- The step `w<mask> = Z` of every GraphBLAS operation: where the mask
selects, `w` takes the entry of `Z` (or loses its entry when `Z` has none);
elsewhere `w` keeps its entry, unless `GrB_REPLACE` is set, which deletes it. -/
def maskedWrite {α : Type} (w : GrB_Vector α) (Z : Nat → Option α)
    (mask : Option (GrB_Vector Int)) (desc : GrB_Descriptor) : GrB_Vector α :=
  ⟨w.n, fun i =>
    if i < w.n then
      if maskAt mask desc.mask_comp i then Z i
      else if desc.outp_replace then none else w.x i
    else none⟩

/-- Modelled from the spec: `GrB_Descriptor_new` (library code outside
`src/`), a "configuration object" with every field at its default: mask not
complemented, output not replaced.  It is also the descriptor in force when
the argument is `NULL`. -/
def GrB_Descriptor_new : GrB_Descriptor := ⟨false, false⟩

/-- Fields of a descriptor that `bfs6` sets. -/
inductive GrB_Desc_Field where
  | GrB_MASK
  | GrB_OUTP
  deriving DecidableEq, Repr

/-- Values that `bfs6` gives to descriptor fields. -/
inductive GrB_Desc_Value where
  | GxB_DEFAULT
  | GrB_COMP
  | GrB_REPLACE
  deriving DecidableEq, Repr

/-- Modelled from the spec: `GrB_Descriptor_set` (library code outside
`src/`), "controlling mask polarity (normal vs. complemented) and
output-clearing behavior (merge-with-existing vs. replace)"; a value that
does not belong to the field leaves the descriptor as it is. -/
def GrB_Descriptor_set (d : GrB_Descriptor) (f : GrB_Desc_Field) (val : GrB_Desc_Value) :
    GrB_Descriptor :=
  match f, val with
  | .GrB_MASK, .GrB_COMP => ⟨true, d.outp_replace⟩
  | .GrB_MASK, .GxB_DEFAULT => ⟨false, d.outp_replace⟩
  | .GrB_OUTP, .GrB_REPLACE => ⟨d.mask_comp, true⟩
  | .GrB_OUTP, .GxB_DEFAULT => ⟨d.mask_comp, false⟩
  | _, _ => d

/-- Whether the mask, when present, has the length of the output. -/
def maskFits {α : Type} (w : GrB_Vector α) (mask : Option (GrB_Vector Int)) : Bool :=
  match mask with
  | none => true
  | some m => m.n == w.n

/-- Modelled from the spec: `GrB_Vector_assign_INT32` with `GrB_ALL` (library
code outside `src/`): `w<mask>(:) = accum (w, val)`, the scalar expanded to
every position.  With `GrB_ALL` the index count `ni` is ignored. -/
def GrB_Vector_assign_INT32 (w : GrB_Vector Int) (mask : Option (GrB_Vector Int))
    (accum : Option (Int → Int → Int)) (val : Int) (_ni : Nat)
    (desc : Option GrB_Descriptor) : Except GrB_Info (GrB_Vector Int) :=
  if maskFits w mask then
    .ok (maskedWrite w (accumulate accum w.x (fun _ => some val)) mask
      (desc.getD GrB_Descriptor_new))
  else .error .GrB_DIMENSION_MISMATCH

/-- Modelled from the spec: `GrB_Vector_assign` with `GrB_ALL` (library code
outside `src/`): `w<mask>(:) = accum (w, u)`.  With `GrB_ALL` the index count
`ni` is ignored. -/
def GrB_Vector_assign (w : GrB_Vector Int) (mask : Option (GrB_Vector Int))
    (accum : Option (Int → Int → Int)) (u : GrB_Vector Int) (_ni : Nat)
    (desc : Option GrB_Descriptor) : Except GrB_Info (GrB_Vector Int) :=
  if maskFits w mask && u.n == w.n then
    .ok (maskedWrite w (accumulate accum w.x (fun i => if i < u.n then u.x i else none)) mask
      (desc.getD GrB_Descriptor_new))
  else .error .GrB_DIMENSION_MISMATCH

/-- Modelled from the spec: `GrB_Vector_apply` (library code outside `src/`),
"write `f(x)` for every explicit entry `x` of a source sparse structure into a
destination, combined via an optional accumulator, subject to an optional mask
and configuration": `w<mask> = accum (w, op (u))`. -/
def GrB_Vector_apply (w : GrB_Vector Int) (mask : Option (GrB_Vector Int))
    (accum : Option (Int → Int → Int)) (op : Bool → Int) (u : GrB_Vector Bool)
    (desc : Option GrB_Descriptor) : Except GrB_Info (GrB_Vector Int) :=
  if maskFits w mask && u.n == w.n then
    .ok (maskedWrite w
      (accumulate accum w.x (fun i => if i < u.n then (u.x i).map op else none)) mask
      (desc.getD GrB_Descriptor_new))
  else .error .GrB_DIMENSION_MISMATCH

/-- The products `u(i) * A(i,j)` that exist for column `j`: one for every row
`i` in the pattern of both `u` and column `j` of `A`; the entry of `A` is
typecast to `bool`. -/
def vxmTerms (S : GrB_Semiring) (u : GrB_Vector Bool) (A : GrB_Matrix) (j : Nat) :
    List Bool :=
  (List.range A.nrows).filterMap (fun i =>
    match u.x i, A.x i j with
    | some a, some b => some (S.mul a (b != 0))
    | _, _ => none)

/-- Entry `j` of `u' * A` over the semiring: absent when no product exists,
otherwise the sum of the products. -/
def vxmEntry (S : GrB_Semiring) (u : GrB_Vector Bool) (A : GrB_Matrix) (j : Nat) :
    Option Bool :=
  if j < A.ncols then
    match vxmTerms S u A j with
    | [] => none
    | t :: ts => some (ts.foldl S.add.op t)
  else none

/-- Modelled from the spec: `GrB_vxm` (library code outside `src/`),
"vector-matrix product over a semiring, subject to an optional mask and
configuration": `w<mask> = accum (w, u' * A)`.  The lengths must agree with the
dimensions of `A`, otherwise `GrB_DIMENSION_MISMATCH`. -/
def GrB_vxm (w : GrB_Vector Bool) (mask : Option (GrB_Vector Int))
    (accum : Option (Bool → Bool → Bool)) (S : GrB_Semiring) (u : GrB_Vector Bool)
    (A : GrB_Matrix) (desc : Option GrB_Descriptor) : Except GrB_Info (GrB_Vector Bool) :=
  if maskFits w mask && u.n == A.nrows && w.n == A.ncols then
    .ok (maskedWrite w (accumulate accum w.x (vxmEntry S u A)) mask
      (desc.getD GrB_Descriptor_new))
  else .error .GrB_DIMENSION_MISMATCH

/-- Modelled from the spec: `GrB_Vector_reduce_BOOL` without accumulator
(library code outside `src/`), "scalar reduction of a sparse vector's explicit
values via a monoid"; an empty pattern gives the identity. -/
def GrB_Vector_reduce_BOOL (M : GrB_Monoid) (u : GrB_Vector Bool) : Bool :=
  ((List.range u.n).filterMap u.x).foldl M.op M.identity

/-- The operator `GrB_PLUS_INT32`. -/
def GrB_PLUS_INT32 (a b : Int) : Int := wrap32 (a + b)

/-- The operator `GrB_LOR`. -/
def GrB_LOR (a b : Bool) : Bool := a || b

/-- The operator `GrB_LAND`. -/
def GrB_LAND (a b : Bool) : Bool := a && b

/-- Modelled from the spec: the unary operator `bfs_level` (declared in
`demos.h`, outside `src/`), "for every node present in Q's explicit pattern,
write `level`": it ignores its input and returns the current value of the
level counter. -/
def bfs_level (level : Int) (_x : Bool) : Int := level

/-- An object after a call whose return code is not inspected: the result of
the call when it succeeded, the old object when it was rejected. -/
def unchecked {α : Type} (r : Except GrB_Info α) (old : α) : α :=
  match r with
  | .ok a => a
  | .error _ => old

/-- Return code of a call of a primitive. -/
def infoOf {α : Type} (r : Except GrB_Info α) : GrB_Info :=
  match r with
  | .ok _ => .GrB_SUCCESS
  | .error e => e

/-! ## bfs6 -/

/-- Variables of `bfs6` that change in the traversal loop.  `level` is the
counter that `bfs_level` reads; it is declared outside this file (`demos.h`)
and has the type of the values the operator writes, `int32_t` (line 85).
`iters` is a ghost counter of executed loop bodies. -/
structure BfsState where
  v : GrB_Vector Int
  q : GrB_Vector Bool
  level : Int
  successor : Bool
  iters : Nat

/-- Logical-or monoid of line 74. -/
def Lor : GrB_Monoid := ⟨GrB_LOR, false⟩

/-- Semiring of line 78: `OR` as the additive monoid, `AND` as multiply. -/
def Boolean : GrB_Semiring := ⟨Lor, GrB_LAND⟩

/-- Descriptor of lines 80-82: complemented mask, replace. -/
def bfs6_desc : GrB_Descriptor :=
  GrB_Descriptor_set (GrB_Descriptor_set GrB_Descriptor_new .GrB_MASK .GrB_COMP)
    .GrB_OUTP .GrB_REPLACE

/-- Lines 63-66: `n`, the dense zero vector `v`, and `n` overwritten with the
number of entries of `v`. -/
def bfs6_v0 (A : GrB_Matrix) : GrB_Vector Int :=
  let n := GrB_Matrix_nrows A
  let v := GrB_Vector_new Int n
  unchecked (GrB_Vector_assign_INT32 v none none 0 n none) v

/-- Value of the local `n` after line 66. -/
def bfs6_n (A : GrB_Matrix) : Nat := GrB_Vector_nvals (bfs6_v0 A)

/-- State after line 91: `v` dense zero, `q` holding `s` when `s` was
accepted, `successor = true`; the level counter still has the value `level0`
it had when the call started. -/
def bfs6_setup (A : GrB_Matrix) (s : Nat) (level0 : Int) : BfsState :=
  let v := bfs6_v0 A
  let n := bfs6_n A
  let q := GrB_Vector_new Bool n
  let q := unchecked (GrB_Vector_setElement_BOOL q true s) q
  ⟨v, q, level0, true, 0⟩

/-- The initialiser `level = 1` of the `for` statement (line 92). -/
def bfs6_for_init (st : BfsState) : BfsState := ⟨st.v, st.q, 1, st.successor, st.iters⟩

/-- Loop condition `successor && level <= n` of line 92. -/
def bfs6_cond (n : Nat) (st : BfsState) : Bool :=
  st.successor && decide (toU64 st.level ≤ n)

/-- Loop body (lines 99-106) followed by `level++`.  The increment wraps in
two's complement; at `INT32_MAX` it stands for a signed overflow, which C
leaves undefined. -/
def bfs6_body (A : GrB_Matrix) (st : BfsState) : BfsState :=
  let v := unchecked
    (GrB_Vector_apply st.v none (some GrB_PLUS_INT32) (bfs_level st.level) st.q none) st.v
  let q := unchecked (GrB_vxm st.q (some v) none Boolean st.q A (some bfs6_desc)) st.q
  let successor := GrB_Vector_reduce_BOOL Lor q
  ⟨v, q, wrap32 (st.level + 1), successor, st.iters + 1⟩

/-- The `for` loop of line 92, from the first test of its condition; `none`
when the fuel is used up before the condition fails. -/
def bfs6_loop (A : GrB_Matrix) (n : Nat) : Nat → BfsState → Option BfsState
  | 0, st => if bfs6_cond n st then none else some st
  | fuel + 1, st =>
    if bfs6_cond n st then bfs6_loop A n fuel (bfs6_body A st) else some st

/-- What a call of `bfs6` leaves: its return value, `*v_output`, and the value
of the level counter. -/
structure Bfs6Result where
  info : GrB_Info
  v_output : GrB_Vector Int
  level : Int

/-- Lines 110-121: the mask is no longer complemented (replace stays set),
`v<v> = v`, and `GrB_SUCCESS` is returned. -/
def bfs6_finish (n : Nat) (st : BfsState) : Bfs6Result :=
  let desc := GrB_Descriptor_set bfs6_desc .GrB_MASK .GxB_DEFAULT
  let v := unchecked (GrB_Vector_assign st.v (some st.v) none st.v n (some desc)) st.v
  ⟨.GrB_SUCCESS, v, st.level⟩

/-- State at loop exit of a call of `bfs6`; the loop gets fuel `n`, one unit
for each execution of the body. -/
def bfs6_exit (A : GrB_Matrix) (s : Nat) (level0 : Int) : Option BfsState :=
  let n := bfs6_n A
  bfs6_loop A n n (bfs6_for_init (bfs6_setup A s level0))

/-- The function `bfs6 (&v_output, A, s)`.  `level0` is the value of the level
counter when the call starts. -/
def bfs6 (A : GrB_Matrix) (s : Nat) (level0 : Int) : Option Bfs6Result :=
  (bfs6_exit A s level0).map (bfs6_finish (bfs6_n A))

/-! ## Reading results and describing graphs -/

/-- Entries of a vector at positions `0 .. n-1`. -/
def GrB_Vector.toList {α : Type} (v : GrB_Vector α) : List (Option α) :=
  (List.range v.n).map v.x

/-- Level of node `i` read from a level vector: an entry outside the pattern
reads as the implicit zero. -/
def levelOf (v : GrB_Vector Int) (i : Nat) : Int := (v.x i).getD 0

/-- The levels of nodes `0 .. n-1`. -/
def levels (v : GrB_Vector Int) : List Int := (List.range v.n).map (levelOf v)

/-- Matrix of given dimension built from a list of tuples `(i, j, value)`. -/
def ofTuples (n : Nat) (es : List (Nat × Nat × Int)) : GrB_Matrix :=
  ⟨n, n, fun i j => (es.find? (fun e => e.1 == i && e.2.1 == j)).map (fun e => e.2.2)⟩

/-- Edge `i -> j` of the graph of `A`: an entry in row `i`, column `j`. -/
def edge (A : GrB_Matrix) (i j : Nat) : Bool :=
  decide (i < A.nrows) && decide (j < A.ncols) && (A.x i j).isSome

/-- Whether a path of exactly `k` edges leads from `s` to the node. -/
def hasWalk (A : GrB_Matrix) (s : Nat) : Nat → Nat → Bool
  | 0, i => decide (i = s)
  | k + 1, j => (List.range A.nrows).any (fun i => hasWalk A s k i && edge A i j)

/-- The least number of edges on a path from `s` to `i` is `d`. -/
def isDist (A : GrB_Matrix) (s i d : Nat) : Prop :=
  hasWalk A s d i = true ∧ ∀ k, k < d → hasWalk A s k i = false

/-- Node `i` is reachable from `s`. -/
def reachable (A : GrB_Matrix) (s i : Nat) : Prop := ∃ k, hasWalk A s k i = true

/-- No explicit entry of `A` is zero. -/
def noExplicitZero (A : GrB_Matrix) : Prop :=
  ∀ i, i < A.nrows → ∀ j, j < A.ncols → A.x i j ≠ some 0

/-- The matrix is square. -/
def isSquare (A : GrB_Matrix) : Prop := A.ncols = A.nrows

instance (A : GrB_Matrix) : Decidable (noExplicitZero A) := by
  unfold noExplicitZero; infer_instance

instance (A : GrB_Matrix) : Decidable (isSquare A) := by
  unfold isSquare; infer_instance

instance (A : GrB_Matrix) (s i d : Nat) : Decidable (isDist A s i d) := by
  unfold isDist; infer_instance

/-! ## Scenarios -/

/-- Scenario 1: the path 0 -> 1 -> 2 -> 3. -/
def pathGraph4 : GrB_Matrix := ofTuples 4 [(0, 1, 1), (1, 2, 1), (2, 3, 1)]
/-- Scenario 2: four nodes, no edge. -/
def noEdges4 : GrB_Matrix := ofTuples 4 []
/-- Scenario 3: the edge 0 -> 1 and two isolated nodes. -/
def oneEdge4 : GrB_Matrix := ofTuples 4 [(0, 1, 1)]
/-- Scenario 4: the cycle 0 -> 1 -> 2 -> 0. -/
def cycle3 : GrB_Matrix := ofTuples 3 [(0, 1, 1), (1, 2, 1), (2, 0, 1)]
/-- Scenario 6: the diamond 0 -> 1, 0 -> 2, 1 -> 3, 2 -> 3. -/
def diamond4 : GrB_Matrix := ofTuples 4 [(0, 1, 1), (0, 2, 1), (1, 3, 1), (2, 3, 1)]

/-- Graph on three nodes with a self-loop at node 0 and a cycle through it. -/
def loopCycle3 : GrB_Matrix := ofTuples 3 [(0, 0, 1), (0, 1, 1), (1, 2, 1), (2, 0, 1)]

/-- Complete graph on four nodes (every ordered pair of distinct nodes). -/
def complete4 : GrB_Matrix :=
  ofTuples 4 [(0, 1, 1), (0, 2, 1), (0, 3, 1), (1, 0, 1), (1, 2, 1), (1, 3, 1),
    (2, 0, 1), (2, 1, 1), (2, 3, 1), (3, 0, 1), (3, 1, 1), (3, 2, 1)]

/-- The diamond graph with the values 7, -3, 2 and 100 at its entries. -/
def diamond4_valued : GrB_Matrix :=
  ofTuples 4 [(0, 1, 7), (0, 2, -3), (1, 3, 2), (2, 3, 100)]

/-- Matrix with 2 rows and 3 columns holding the single entry `(0, 1)`. -/
def wide23 : GrB_Matrix := ⟨2, 3, fun i j => if i = 0 ∧ j = 1 then some 1 else none⟩

/-- Path `0 -> 1 -> ... -> n-1` on `n` nodes. -/
def pathGraph (n : Nat) : GrB_Matrix := ⟨n, n, fun i j => if j = i + 1 then some 1 else none⟩

/-- The two matrices have the same dimensions and the same pattern. -/
def samePattern (A B : GrB_Matrix) : Prop :=
  A.nrows = B.nrows ∧ A.ncols = B.ncols ∧
    ∀ i, i < A.nrows → ∀ j, j < A.ncols → (A.x i j).isSome = (B.x i j).isSome

instance (A B : GrB_Matrix) : Decidable (samePattern A B) := by
  unfold samePattern; infer_instance

/-! ## States of the loop -/

/-- The state reached from `st` after `k` further executions of the loop body,
each one entered through a successful test of the loop condition; `none` when
the loop exits earlier. -/
def bfs6_iter (A : GrB_Matrix) (n : Nat) : Nat → BfsState → Option BfsState
  | 0, st => some st
  | k + 1, st => if bfs6_cond n st then bfs6_iter A n k (bfs6_body A st) else none

/-- The state of a call of `bfs6` at the test of the loop condition that
follows `k` executions of the body. -/
def bfs6_at (A : GrB_Matrix) (s : Nat) (level0 : Int) (k : Nat) : Option BfsState :=
  bfs6_iter A (bfs6_n A) k (bfs6_for_init (bfs6_setup A s level0))

/-- Node `j` is stamped in `v`: it holds an explicit nonzero value.  This is
the value of the mask entry `v (j)` typecast to `bool`. -/
def isStamped (v : GrB_Vector Int) (j : Nat) : Bool :=
  match v.x j with
  | some z => z != 0
  | none => false

/-- The matrix without its explicit zero entries: the graph whose edges are
the nonzero entries. -/
def dropZeros (A : GrB_Matrix) : GrB_Matrix :=
  ⟨A.nrows, A.ncols, fun i j => if A.x i j = some 0 then none else A.x i j⟩

/-- Three nodes with the explicit entries `A (0,1) = 1` and `A (0,2) = 0`. -/
def zeroEntry3 : GrB_Matrix := ofTuples 3 [(0, 1, 1), (0, 2, 0)]

/-- The state of the call on `cycle3` from source 0 after two executions of the
loop body. -/
def cycle3_at2 : BfsState :=
  bfs6_body cycle3 (bfs6_body cycle3 (bfs6_for_init (bfs6_setup cycle3 0 0)))

/-! ## Loop invariants -/

/-- Invariant of the traversal loop at the test of its condition, after `t`
executions of the body: nodes at distance below `t` carry their level, all
other nodes carry `0`, and the frontier is the set of nodes at distance `t`. -/
structure Inv (A : GrB_Matrix) (s t : Nat) (st : BfsState) : Prop where
  vn : st.v.n = A.nrows
  qn : st.q.n = A.nrows
  lev : st.level = wrap32 ((t : Int) + 1)
  tmax : (t : Int) ≤ INT32_MAX
  tn : t ≤ A.nrows
  it : st.iters = t
  stamped : ∀ i k, k < t → isDist A s i k → st.v.x i = some ((k : Int) + 1)
  unstamped : ∀ i, i < A.nrows → (∀ k, k < t → hasWalk A s k i = false) → st.v.x i = some 0
  front : ∀ i, isDist A s i t → st.q.x i = some true
  nofront : ∀ i, ¬ isDist A s i t → st.q.x i = none
  succ : st.successor = true ↔ ∃ i, isDist A s i t

/-- Facts of the loop that hold for every matrix and every source index: the
level counter follows the number `t` of executed bodies and the lengths of `v`
and `q` stay `n`. -/
structure Count (n t : Nat) (st : BfsState) : Prop where
  lev : st.level = wrap32 ((t : Int) + 1)
  tmax : (t : Int) ≤ INT32_MAX
  tn : t ≤ n
  it : st.iters = t
  vn : st.v.n = n
  qn : st.q.n = n

/-! ## Integer lemmas -/

theorem wrap32_of_range (z : Int) (h1 : -2147483648 ≤ z) (h2 : z ≤ 2147483647) :
    wrap32 z = z := by
  unfold wrap32; omega

theorem cond_level (n t : Nat) (hn : n ≤ GxB_INDEX_MAX) (ht : (t : Int) ≤ INT32_MAX)
    (h : toU64 (wrap32 ((t : Int) + 1)) ≤ n) : t + 1 ≤ n ∧ (t : Int) + 1 ≤ INT32_MAX := by
  unfold toU64 wrap32 at h
  unfold GxB_INDEX_MAX at hn
  unfold INT32_MAX at ht ⊢
  omega

theorem cond_level_conv (n t : Nat) (ht : (t : Int) + 1 ≤ INT32_MAX) (h : t + 1 ≤ n) :
    toU64 (wrap32 ((t : Int) + 1)) ≤ n := by
  unfold toU64 wrap32
  unfold INT32_MAX at ht
  omega

/-! ## The loop -/

theorem bfs6_loop_inv (A : GrB_Matrix) (n : Nat) (P : Nat → BfsState → Prop)
    (hstep : ∀ t st, P t st → bfs6_cond n st = true → P (t + 1) (bfs6_body A st)) :
    ∀ fuel t st st', P t st → bfs6_loop A n fuel st = some st' →
      ∃ t', P t' st' ∧ bfs6_cond n st' = false := by
  intro fuel
  induction fuel with
  | zero =>
    intro t st st' hP h
    unfold bfs6_loop at h
    split at h
    · cases h
    · rename_i hc
      cases h
      exact ⟨t, hP, by simpa using hc⟩
  | succ fuel ih =>
    intro t st st' hP h
    unfold bfs6_loop at h
    split at h
    · rename_i hc
      exact ih (t + 1) _ _ (hstep t st hP hc) h
    · rename_i hc
      cases h
      exact ⟨t, hP, by simpa using hc⟩

theorem bfs6_body_level (A : GrB_Matrix) (st : BfsState) :
    (bfs6_body A st).level = wrap32 (st.level + 1) := rfl

theorem bfs6_body_iters (A : GrB_Matrix) (st : BfsState) :
    (bfs6_body A st).iters = st.iters + 1 := rfl

theorem bfs6_loop_total (A : GrB_Matrix) (n : Nat) (hn : n ≤ GxB_INDEX_MAX) :
    ∀ fuel (t : Nat) st, st.level = wrap32 ((t : Int) + 1) → (t : Int) ≤ INT32_MAX →
      n ≤ t + fuel → ∃ st', bfs6_loop A n fuel st = some st' := by
  intro fuel
  induction fuel with
  | zero =>
    intro t st hl ht hf
    unfold bfs6_loop
    split
    · rename_i hc
      simp only [bfs6_cond, Bool.and_eq_true, decide_eq_true_eq] at hc
      rw [hl] at hc
      have := cond_level n t hn ht hc.2
      omega
    · exact ⟨st, rfl⟩
  | succ fuel ih =>
    intro t st hl ht hf
    unfold bfs6_loop
    split
    · rename_i hc
      simp only [bfs6_cond, Bool.and_eq_true, decide_eq_true_eq] at hc
      rw [hl] at hc
      have h2 := cond_level n t hn ht hc.2
      apply ih (t + 1)
      · rw [bfs6_body_level, hl, wrap32_of_range ((t : Int) + 1)]
        · push_cast; ring_nf
        · omega
        · unfold INT32_MAX at h2; omega
      · push_cast; exact h2.2
      · omega
    · exact ⟨st, rfl⟩

/-! ## Paths and distances -/

theorem hasWalk_succ (A : GrB_Matrix) (s k j : Nat) :
    hasWalk A s (k + 1) j = true ↔ ∃ i, hasWalk A s k i = true ∧ edge A i j = true := by
  simp only [hasWalk, List.any_eq_true, List.mem_range, Bool.and_eq_true]
  constructor
  · rintro ⟨i, _, h1, h2⟩
    exact ⟨i, h1, h2⟩
  · rintro ⟨i, h1, h2⟩
    refine ⟨i, ?_, h1, h2⟩
    simp only [edge, Bool.and_eq_true, decide_eq_true_eq] at h2
    exact h2.1.1

theorem edge_iff (A : GrB_Matrix) (i j : Nat) :
    edge A i j = true ↔ i < A.nrows ∧ j < A.ncols ∧ A.x i j ≠ none := by
  simp only [edge, Bool.and_eq_true, decide_eq_true_eq, Option.isSome_iff_ne_none]
  tauto

theorem hasWalk_lt (A : GrB_Matrix) (s : Nat) (hsq : isSquare A) (hs : s < A.nrows) :
    ∀ k i, hasWalk A s k i = true → i < A.nrows := by
  intro k i h
  cases k with
  | zero =>
    simp only [hasWalk, decide_eq_true_eq] at h
    omega
  | succ k =>
    obtain ⟨m, _, hm⟩ := (hasWalk_succ A s k i).1 h
    have := ((edge_iff A m i).1 hm).2.1
    unfold isSquare at hsq
    omega

theorem isDist_unique (A : GrB_Matrix) (s i d e : Nat) (h1 : isDist A s i d)
    (h2 : isDist A s i e) : d = e := by
  rcases Nat.lt_trichotomy d e with h | h | h
  · have := h2.2 d h
    rw [h1.1] at this
    cases this
  · exact h
  · have := h1.2 e h
    rw [h2.1] at this
    cases this

theorem exists_isDist (A : GrB_Matrix) (s : Nat) :
    ∀ k i, hasWalk A s k i = true → ∃ d, d ≤ k ∧ isDist A s i d := by
  intro k
  induction k using Nat.strong_induction_on with
  | _ k ih =>
    intro i h
    by_cases hmin : ∀ m, m < k → hasWalk A s m i = false
    · exact ⟨k, le_refl k, h, hmin⟩
    · push_neg at hmin
      obtain ⟨m, hm, hw⟩ := hmin
      have hw2 : hasWalk A s m i = true := by simpa using hw
      obtain ⟨d, hd, hdist⟩ := ih m hm i hw2
      exact ⟨d, by omega, hdist⟩

theorem isDist_pred (A : GrB_Matrix) (s j k : Nat) (h : isDist A s j (k + 1)) :
    ∃ i, isDist A s i k ∧ edge A i j = true := by
  obtain ⟨i, hw, he⟩ := (hasWalk_succ A s k j).1 h.1
  refine ⟨i, ⟨hw, ?_⟩, he⟩
  intro m hm
  by_contra hc
  have hw2 : hasWalk A s m i = true := by simpa using hc
  have h3 : hasWalk A s (m + 1) j = true := (hasWalk_succ A s m j).2 ⟨i, hw2, he⟩
  have h4 := h.2 (m + 1) (by omega)
  rw [h3] at h4
  cases h4

theorem isDist_layers (A : GrB_Matrix) (s : Nat) :
    ∀ d i, isDist A s i d → ∀ k, k ≤ d → ∃ m, isDist A s m k := by
  intro d
  induction d with
  | zero =>
    intro i h k hk
    have : k = 0 := by omega
    subst this
    exact ⟨i, h⟩
  | succ d ih =>
    intro i h k hk
    by_cases hkd : k = d + 1
    · subst hkd
      exact ⟨i, h⟩
    · obtain ⟨m, hm, _⟩ := isDist_pred A s i d h
      exact ih m hm k (by omega)

theorem isDist_lt_nrows (A : GrB_Matrix) (s : Nat) (hsq : isSquare A) (hs : s < A.nrows)
    (d i : Nat) (h : isDist A s i d) : d < A.nrows := by
  have hl := isDist_layers A s d i h
  choose f hf using hl
  let g : Nat → Nat := fun k => if hk : k ≤ d then f k hk else 0
  have hg : ∀ k, k ≤ d → isDist A s (g k) k := by
    intro k hk
    simp only [g, hk, dite_true]
    exact hf k hk
  have hmaps : ∀ k ∈ Finset.range (d + 1), g k ∈ Finset.range A.nrows := by
    intro k hk
    rw [Finset.mem_range] at hk ⊢
    exact hasWalk_lt A s hsq hs k (g k) (hg k (by omega)).1
  have hinj : Set.InjOn g (Finset.range (d + 1) : Set Nat) := by
    intro a ha b hb hab
    simp only [Finset.coe_range, Set.mem_Iio] at ha hb
    have h1 := hg a (by omega)
    have h2 := hg b (by omega)
    rw [hab] at h1
    exact isDist_unique A s (g b) a b h1 h2
  have := Finset.card_le_card_of_injOn g hmaps hinj
  simp only [Finset.card_range] at this
  omega

theorem hasWalk_dead (A : GrB_Matrix) (s k : Nat) (h : ∀ j, hasWalk A s k j = false) :
    ∀ m, k ≤ m → ∀ j, hasWalk A s m j = false := by
  intro m hm
  induction m with
  | zero =>
    have : k = 0 := by omega
    subst this
    exact h
  | succ m ih =>
    by_cases hk : k = m + 1
    · subst hk
      exact h
    · intro j
      by_contra hc
      obtain ⟨i, hi, _⟩ := (hasWalk_succ A s m j).1 (by simpa using hc)
      rw [ih (by omega) i] at hi
      cases hi

theorem isDist_zero (A : GrB_Matrix) (s i : Nat) : isDist A s i 0 ↔ i = s := by
  simp [isDist, hasWalk]

/-! ## The primitives as called by bfs6 -/

theorem bfs6_v0_n (A : GrB_Matrix) : (bfs6_v0 A).n = A.nrows := by
  simp [bfs6_v0, GrB_Vector_assign_INT32, maskFits, unchecked, maskedWrite, GrB_Vector_new,
    GrB_Matrix_nrows]

theorem bfs6_v0_x (A : GrB_Matrix) (i : Nat) :
    (bfs6_v0 A).x i = if i < A.nrows then some 0 else none := by
  simp [bfs6_v0, GrB_Vector_assign_INT32, maskFits, unchecked, maskedWrite, GrB_Vector_new,
    GrB_Matrix_nrows, maskAt, accumulate, GrB_Descriptor_new]

theorem bfs6_n_eq (A : GrB_Matrix) : bfs6_n A = A.nrows := by
  unfold bfs6_n GrB_Vector_nvals
  rw [bfs6_v0_n]
  have : (List.range A.nrows).filter (fun i => ((bfs6_v0 A).x i).isSome) = List.range A.nrows := by
    rw [List.filter_eq_self]
    intro i hi
    rw [List.mem_range] at hi
    simp [bfs6_v0_x, hi]
  rw [this, List.length_range]

theorem setup_v (A : GrB_Matrix) (s : Nat) (l : Int) : (bfs6_setup A s l).v = bfs6_v0 A := rfl

theorem setup_q_n (A : GrB_Matrix) (s : Nat) (l : Int) : (bfs6_setup A s l).q.n = A.nrows := by
  simp only [bfs6_setup, bfs6_n_eq, GrB_Vector_setElement_BOOL, GrB_Vector_new]
  split <;> simp [unchecked]

theorem setup_q_x (A : GrB_Matrix) (s : Nat) (l : Int) (hs : s < A.nrows) (i : Nat) :
    (bfs6_setup A s l).q.x i = if i = s then some true else none := by
  simp [bfs6_setup, bfs6_n_eq, GrB_Vector_setElement_BOOL, GrB_Vector_new, hs, unchecked]

theorem setup_q_x_bad (A : GrB_Matrix) (s : Nat) (l : Int) (hs : ¬ s < A.nrows) (i : Nat) :
    (bfs6_setup A s l).q.x i = none := by
  simp [bfs6_setup, bfs6_n_eq, GrB_Vector_setElement_BOOL, GrB_Vector_new, hs, unchecked]

theorem body_v_n (A : GrB_Matrix) (st : BfsState) : (bfs6_body A st).v.n = st.v.n := by
  simp only [bfs6_body, GrB_Vector_apply]
  split <;> simp [unchecked, maskedWrite]

theorem body_q_n (A : GrB_Matrix) (st : BfsState) : (bfs6_body A st).q.n = st.q.n := by
  simp only [bfs6_body, GrB_vxm]
  split <;> simp [unchecked, maskedWrite]

theorem body_v_x (A : GrB_Matrix) (st : BfsState) (hn : st.q.n = st.v.n) (i : Nat) :
    (bfs6_body A st).v.x i =
      if i < st.v.n then accumulate (some GrB_PLUS_INT32) st.v.x
        (fun i => (st.q.x i).map (bfs_level st.level)) i
      else none := by
  simp only [bfs6_body, GrB_Vector_apply, maskFits, hn, beq_self_eq_true, Bool.and_self,
    if_true, unchecked, maskedWrite, maskAt, GrB_Descriptor_new, Option.getD_none,
    Bool.not_false]
  by_cases h : i < st.v.n
  · simp [h, accumulate]
  · simp [h]

theorem vxm_ok (w u : GrB_Vector Bool) (m : GrB_Vector Int) (S : GrB_Semiring)
    (A : GrB_Matrix) (d : GrB_Descriptor) (h1 : m.n = w.n) (h2 : u.n = A.nrows)
    (h3 : w.n = A.ncols) :
    GrB_vxm w (some m) none S u A (some d) = .ok (maskedWrite w (vxmEntry S u A) (some m) d) := by
  simp [GrB_vxm, maskFits, h1, h2, h3, accumulate]

theorem body_q_eq (A : GrB_Matrix) (st : BfsState) :
    (bfs6_body A st).q = unchecked
      (GrB_vxm st.q (some (bfs6_body A st).v) none Boolean st.q A (some bfs6_desc)) st.q := rfl

theorem body_q_x (A : GrB_Matrix) (st : BfsState) (hn : st.q.n = st.v.n)
    (hr : st.q.n = A.nrows) (hc : st.q.n = A.ncols) (j : Nat) :
    (bfs6_body A st).q.x j =
      if j < st.q.n then
        (match (bfs6_body A st).v.x j with
          | some z => if z = 0 then vxmEntry Boolean st.q A j else none
          | none => vxmEntry Boolean st.q A j)
      else none := by
  rw [body_q_eq, vxm_ok _ _ _ _ _ _ (by rw [body_v_n, hn]) hr hc]
  simp only [unchecked, maskedWrite, maskAt, bfs6_desc, GrB_Descriptor_set, GrB_Descriptor_new]
  by_cases h : j < st.q.n
  · simp only [h, if_true]
    cases (bfs6_body A st).v.x j with
    | none => simp
    | some z => by_cases hz : z = 0 <;> simp [hz]
  · simp [h]

theorem foldl_LOR (l : List Bool) (b : Bool) :
    l.foldl GrB_LOR b = (b || l.any id) := by
  induction l generalizing b with
  | nil => simp
  | cons a l ih => simp [List.foldl_cons, ih, GrB_LOR, Bool.or_assoc]

theorem reduce_Lor (u : GrB_Vector Bool) :
    GrB_Vector_reduce_BOOL Lor u = true ↔ ∃ i, i < u.n ∧ u.x i = some true := by
  simp only [GrB_Vector_reduce_BOOL, Lor, foldl_LOR, Bool.false_or, List.any_eq_true,
    List.mem_filterMap, List.mem_range, id]
  constructor
  · rintro ⟨b, ⟨i, hi, hx⟩, hb⟩
    subst hb
    exact ⟨i, hi, hx⟩
  · rintro ⟨i, hi, hx⟩
    exact ⟨true, ⟨i, hi, hx⟩, rfl⟩

theorem mem_vxmTerms (S : GrB_Semiring) (u : GrB_Vector Bool) (A : GrB_Matrix) (j : Nat)
    (t : Bool) :
    t ∈ vxmTerms S u A j ↔
      ∃ i a b, i < A.nrows ∧ u.x i = some a ∧ A.x i j = some b ∧ t = S.mul a (b != 0) := by
  simp only [vxmTerms, List.mem_filterMap, List.mem_range]
  constructor
  · rintro ⟨i, hi, h⟩
    split at h
    · rename_i a b ha hb
      simp only [Option.some.injEq] at h
      exact ⟨i, a, b, hi, ha, hb, h.symm⟩
    · cases h
  · rintro ⟨i, a, b, hi, ha, hb, ht⟩
    exact ⟨i, hi, by simp [ha, hb, ht]⟩

theorem vxmEntry_none (S : GrB_Semiring) (u : GrB_Vector Bool) (A : GrB_Matrix) (j : Nat)
    (h : ¬ ∃ i, u.x i ≠ none ∧ edge A i j = true) : vxmEntry S u A j = none := by
  unfold vxmEntry
  split
  · rename_i hj
    have hnil : vxmTerms S u A j = [] := by
      rw [List.eq_nil_iff_forall_not_mem]
      intro t ht
      obtain ⟨i, a, b, hi, ha, hb, _⟩ := (mem_vxmTerms S u A j t).1 ht
      apply h
      refine ⟨i, by simp [ha], ?_⟩
      rw [edge_iff]
      exact ⟨hi, hj, by simp [hb]⟩
    rw [hnil]
  · rfl

theorem vxmEntry_some (u : GrB_Vector Bool) (A : GrB_Matrix) (j : Nat)
    (hu : ∀ i b, u.x i = some b → b = true) (hz : noExplicitZero A)
    (h : ∃ i, u.x i ≠ none ∧ edge A i j = true) : vxmEntry Boolean u A j = some true := by
  obtain ⟨i, hi, he⟩ := h
  rw [edge_iff] at he
  obtain ⟨hr, hc, hx⟩ := he
  have hall : ∀ t, t ∈ vxmTerms Boolean u A j → t = true := by
    intro t ht
    obtain ⟨m, a, b, hm, ha, hb, ht⟩ := (mem_vxmTerms Boolean u A j t).1 ht
    have ha2 := hu m a ha
    have hb2 : b ≠ 0 := by
      intro hb0
      exact hz m hm j hc (by rw [hb, hb0])
    subst ha2
    simp [ht, Boolean, GrB_LAND, hb2]
  have hne : vxmTerms Boolean u A j ≠ [] := by
    obtain ⟨a, ha⟩ := Option.ne_none_iff_exists'.1 hi
    obtain ⟨b, hb⟩ := Option.ne_none_iff_exists'.1 hx
    intro hnil
    have : Boolean.mul a (b != 0) ∈ vxmTerms Boolean u A j :=
      (mem_vxmTerms Boolean u A j _).2 ⟨i, a, b, hr, ha, hb, rfl⟩
    rw [hnil] at this
    cases this
  unfold vxmEntry
  rw [if_pos hc]
  cases hl : vxmTerms Boolean u A j with
  | nil => exact absurd hl hne
  | cons t ts =>
    have ht : t = true := hall t (by rw [hl]; exact List.mem_cons_self t ts)
    subst ht
    simp [Boolean, Lor, foldl_LOR]

/-! ## The loop invariant -/

theorem Inv_init (A : GrB_Matrix) (s : Nat) (l : Int) (hs : s < A.nrows) :
    Inv A s 0 (bfs6_for_init (bfs6_setup A s l)) where
  vn := by simp [bfs6_for_init, setup_v, bfs6_v0_n]
  qn := by simp [bfs6_for_init, setup_q_n]
  lev := by simp [bfs6_for_init, wrap32]
  tmax := by simp [INT32_MAX]
  tn := Nat.zero_le _
  it := rfl
  stamped := by intro i k hk; omega
  unstamped := by
    intro i hi _
    simp [bfs6_for_init, setup_v, bfs6_v0_x, hi]
  front := by
    intro i hd
    rw [isDist_zero] at hd
    simp [bfs6_for_init, setup_q_x A s l hs, hd]
  nofront := by
    intro i hd
    rw [isDist_zero] at hd
    simp [bfs6_for_init, setup_q_x A s l hs, hd]
  succ := by
    constructor
    · intro _
      exact ⟨s, (isDist_zero A s s).2 rfl⟩
    · intro _
      rfl

theorem accumulate_none_right {α : Type} (f : α → α → α) (w T : Nat → Option α) (i : Nat)
    (h : T i = none) : accumulate (some f) w T i = w i := by
  simp only [accumulate, h]
  cases w i <;> rfl

theorem body_v_keep (A : GrB_Matrix) (st : BfsState) (hn : st.q.n = st.v.n) (i : Nat)
    (hi : i < st.v.n) (hq : st.q.x i = none) : (bfs6_body A st).v.x i = st.v.x i := by
  rw [body_v_x A st hn, if_pos hi, accumulate_none_right]
  simp [hq]

theorem body_v_stamp (A : GrB_Matrix) (st : BfsState) (hn : st.q.n = st.v.n) (i : Nat)
    (hi : i < st.v.n) (a : Int) (b : Bool) (hv : st.v.x i = some a) (hq : st.q.x i = some b) :
    (bfs6_body A st).v.x i = some (wrap32 (a + st.level)) := by
  rw [body_v_x A st hn, if_pos hi]
  simp [accumulate, hv, hq, GrB_PLUS_INT32, bfs_level]

theorem Inv_step (A : GrB_Matrix) (s : Nat) (hsq : isSquare A) (hs : s < A.nrows)
    (hz : noExplicitZero A) (hn : A.nrows ≤ GxB_INDEX_MAX) (t : Nat) (st : BfsState)
    (inv : Inv A s t st) (hc : bfs6_cond A.nrows st = true) :
    Inv A s (t + 1) (bfs6_body A st) := by
  simp only [bfs6_cond, Bool.and_eq_true, decide_eq_true_eq] at hc
  have hlv := hc.2
  rw [inv.lev] at hlv
  obtain ⟨ht1, ht2⟩ := cond_level A.nrows t hn inv.tmax hlv
  have hlevel : st.level = (t : Int) + 1 := by
    rw [inv.lev]
    apply wrap32_of_range
    · omega
    · unfold INT32_MAX at ht2; omega
  have hqv : st.q.n = st.v.n := by rw [inv.qn, inv.vn]
  have hqc : st.q.n = A.ncols := by rw [inv.qn]; exact hsq.symm
  have hlt : ∀ k i, hasWalk A s k i = true → i < A.nrows := hasWalk_lt A s hsq hs
  have hkeep : ∀ i, i < A.nrows → ¬ isDist A s i t → (bfs6_body A st).v.x i = st.v.x i := by
    intro i hi hd
    exact body_v_keep A st hqv i (by rw [inv.vn]; exact hi) (inv.nofront i hd)
  have hstamped : ∀ i k, k < t + 1 → isDist A s i k →
      (bfs6_body A st).v.x i = some ((k : Int) + 1) := by
    intro i k hk hd
    have hi := hlt k i hd.1
    by_cases hkt : k = t
    · subst hkt
      have hv0 := inv.unstamped i hi hd.2
      rw [body_v_stamp A st hqv i (by rw [inv.vn]; exact hi) 0 true hv0 (inv.front i hd),
        hlevel, zero_add, wrap32_of_range]
      · omega
      · unfold INT32_MAX at ht2; omega
    · have hne : ¬ isDist A s i t := fun h => hkt (isDist_unique A s i k t hd h)
      rw [hkeep i hi hne]
      exact inv.stamped i k (by omega) hd
  have hunstamped : ∀ i, i < A.nrows → (∀ k, k < t + 1 → hasWalk A s k i = false) →
      (bfs6_body A st).v.x i = some 0 := by
    intro i hi hw
    have hne : ¬ isDist A s i t := by
      intro h
      have := hw t (by omega)
      rw [h.1] at this
      cases this
    rw [hkeep i hi hne]
    exact inv.unstamped i hi (fun k hk => hw k (by omega))
  have hqtrue : ∀ i b, st.q.x i = some b → b = true := by
    intro i b hb
    by_cases hd : isDist A s i t
    · have := inv.front i hd
      rw [hb] at this
      exact Option.some.inj this
    · have := inv.nofront i hd
      rw [hb] at this
      cases this
  have hfront : ∀ j, isDist A s j (t + 1) → (bfs6_body A st).q.x j = some true := by
    intro j hd
    have hj := hlt (t + 1) j hd.1
    rw [body_q_x A st hqv inv.qn hqc, if_pos (by rw [inv.qn]; exact hj),
      hunstamped j hj hd.2]
    simp only [if_true]
    apply vxmEntry_some st.q A j hqtrue hz
    obtain ⟨i, hi, he⟩ := isDist_pred A s j t hd
    exact ⟨i, by rw [inv.front i hi]; simp, he⟩
  have hnofront : ∀ j, ¬ isDist A s j (t + 1) → (bfs6_body A st).q.x j = none := by
    intro j hd
    rw [body_q_x A st hqv inv.qn hqc]
    by_cases hj : j < A.nrows
    · rw [if_pos (by rw [inv.qn]; exact hj)]
      by_cases hw : ∃ k, k < t + 1 ∧ hasWalk A s k j = true
      · obtain ⟨k, hk, hwk⟩ := hw
        obtain ⟨d, hdk, hdist⟩ := exists_isDist A s k j hwk
        rw [hstamped j d (by omega) hdist]
        have : ¬ ((d : Int) + 1 = 0) := by omega
        simp [this]
      · push_neg at hw
        have hw2 : ∀ k, k < t + 1 → hasWalk A s k j = false := by
          intro k hk
          simpa using hw k hk
        rw [hunstamped j hj hw2]
        simp only [if_true]
        apply vxmEntry_none
        rintro ⟨i, hi, he⟩
        have hdi : isDist A s i t := by
          by_contra hnd
          exact hi (inv.nofront i hnd)
        exact hd ⟨(hasWalk_succ A s t j).2 ⟨i, hdi.1, he⟩, hw2⟩
    · rw [if_neg (by rw [inv.qn]; exact hj)]
  exact {
    vn := by rw [body_v_n, inv.vn]
    qn := by rw [body_q_n, inv.qn]
    lev := by
      rw [bfs6_body_level, hlevel]
      push_cast
      rfl
    tmax := by push_cast; exact ht2
    tn := ht1
    it := by rw [bfs6_body_iters, inv.it]
    stamped := hstamped
    unstamped := hunstamped
    front := hfront
    nofront := hnofront
    succ := by
      show GrB_Vector_reduce_BOOL Lor (bfs6_body A st).q = true ↔ _
      rw [reduce_Lor]
      constructor
      · rintro ⟨i, _, hx⟩
        refine ⟨i, ?_⟩
        by_contra hnd
        rw [hnofront i hnd] at hx
        cases hx
      · rintro ⟨i, hd⟩
        exact ⟨i, by rw [body_q_n, inv.qn]; exact hlt (t + 1) i hd.1, hfront i hd⟩ }

/-- On a square matrix without explicit zeros and a source inside the matrix,
the loop exits within its fuel, and the invariant holds at the exit. -/
theorem bfs6_exit_inv (A : GrB_Matrix) (s : Nat) (l : Int) (hsq : isSquare A)
    (hs : s < A.nrows) (hz : noExplicitZero A) (hn : A.nrows ≤ GxB_INDEX_MAX) :
    ∃ st t, bfs6_exit A s l = some st ∧ Inv A s t st ∧ bfs6_cond A.nrows st = false := by
  unfold bfs6_exit
  simp only [bfs6_n_eq]
  obtain ⟨st, hst⟩ := bfs6_loop_total A A.nrows hn A.nrows 0
    (bfs6_for_init (bfs6_setup A s l)) (by simp [bfs6_for_init, wrap32])
    (by simp [INT32_MAX]) (by omega)
  obtain ⟨t, hinv, hcond⟩ := bfs6_loop_inv A A.nrows (Inv A s)
    (fun t st h hc => Inv_step A s hsq hs hz hn t st h hc) A.nrows 0 _ st
    (Inv_init A s l hs) hst
  exact ⟨st, t, hst, hinv, hcond⟩

/-! ## The final step and the loop exit -/

theorem finish_x (n : Nat) (st : BfsState) (i : Nat) :
    (bfs6_finish n st).v_output.x i =
      if i < st.v.n then
        (match st.v.x i with
          | some z => if z = 0 then none else some z
          | none => none)
      else none := by
  simp only [bfs6_finish, GrB_Vector_assign, maskFits, beq_self_eq_true, Bool.and_self,
    if_true, unchecked, maskedWrite, maskAt, accumulate, bfs6_desc, GrB_Descriptor_set,
    GrB_Descriptor_new, Option.getD_some, Bool.false_xor]
  by_cases h : i < st.v.n
  · simp only [h, if_true]
    cases st.v.x i with
    | none => simp
    | some z => by_cases hz : z = 0 <;> simp [hz]
  · simp [h]

theorem finish_n (n : Nat) (st : BfsState) : (bfs6_finish n st).v_output.n = st.v.n := by
  simp [bfs6_finish, GrB_Vector_assign, maskFits, unchecked, maskedWrite]

theorem finish_info (n : Nat) (st : BfsState) : (bfs6_finish n st).info = .GrB_SUCCESS := rfl

theorem bfs6_of_exit (A : GrB_Matrix) (s : Nat) (l : Int) (st : BfsState)
    (h : bfs6_exit A s l = some st) : bfs6 A s l = some (bfs6_finish (bfs6_n A) st) := by
  simp [bfs6, h]

/-- At the loop exit every distance is below the number of executed bodies,
when the number of nodes is in the range of `int32_t`. -/
theorem Inv_exit_complete (A : GrB_Matrix) (s : Nat) (hsq : isSquare A) (hs : s < A.nrows)
    (hn32 : (A.nrows : Int) ≤ INT32_MAX) (t : Nat) (st : BfsState) (inv : Inv A s t st)
    (hc : bfs6_cond A.nrows st = false) : ∀ i d, isDist A s i d → d < t := by
  intro i d hd
  by_contra hlt
  have hdn := isDist_lt_nrows A s hsq hs d i hd
  obtain ⟨m, hm⟩ := isDist_layers A s d i hd t (by omega)
  have hsucc : st.successor = true := inv.succ.2 ⟨m, hm⟩
  have hle : toU64 st.level ≤ A.nrows := by
    rw [inv.lev]
    apply cond_level_conv
    · have : (t : Int) + 1 ≤ (A.nrows : Int) := by omega
      omega
    · omega
  simp [bfs6_cond, hsucc, hle] at hc

theorem Inv_exit_pos (A : GrB_Matrix) (s : Nat) (hs : s < A.nrows) (t : Nat) (st : BfsState)
    (inv : Inv A s t st) (hc : bfs6_cond A.nrows st = false) : 0 < t := by
  by_contra h0
  have ht : t = 0 := by omega
  subst ht
  have hsucc : st.successor = true := inv.succ.2 ⟨s, (isDist_zero A s s).2 rfl⟩
  have hle : toU64 st.level ≤ A.nrows := by
    rw [inv.lev]
    apply cond_level_conv
    · simp [INT32_MAX]
    · omega
  simp [bfs6_cond, hsucc, hle] at hc

/-- At the loop exit a node holds `0` or the level of its distance. -/
theorem Inv_v_cases (A : GrB_Matrix) (s : Nat) (t : Nat) (st : BfsState) (inv : Inv A s t st)
    (i : Nat) (hi : i < A.nrows) :
    st.v.x i = some 0 ∨ ∃ d, d < t ∧ isDist A s i d ∧ st.v.x i = some ((d : Int) + 1) := by
  by_cases hw : ∃ k, k < t ∧ hasWalk A s k i = true
  · obtain ⟨k, hk, hwk⟩ := hw
    obtain ⟨d, hdk, hd⟩ := exists_isDist A s k i hwk
    exact Or.inr ⟨d, by omega, hd, inv.stamped i d (by omega) hd⟩
  · push_neg at hw
    exact Or.inl (inv.unstamped i hi (fun k hk => by simpa using hw k hk))

theorem Count_step (A : GrB_Matrix) (n : Nat) (hn : n ≤ GxB_INDEX_MAX) (t : Nat)
    (st : BfsState) (c : Count n t st) (hc : bfs6_cond n st = true) :
    Count n (t + 1) (bfs6_body A st) := by
  simp only [bfs6_cond, Bool.and_eq_true, decide_eq_true_eq] at hc
  have hlv := hc.2
  rw [c.lev] at hlv
  obtain ⟨ht1, ht2⟩ := cond_level n t hn c.tmax hlv
  exact {
    lev := by
      rw [bfs6_body_level, c.lev, wrap32_of_range ((t : Int) + 1) (by omega)
        (by unfold INT32_MAX at ht2; omega)]
      push_cast
      rfl
    tmax := by push_cast; exact ht2
    tn := ht1
    it := by rw [bfs6_body_iters, c.it]
    vn := by rw [body_v_n, c.vn]
    qn := by rw [body_q_n, c.qn] }

theorem bfs6_exit_count (A : GrB_Matrix) (s : Nat) (l : Int) (hn : A.nrows ≤ GxB_INDEX_MAX) :
    ∃ st t, bfs6_exit A s l = some st ∧ Count A.nrows t st ∧
      bfs6_cond A.nrows st = false := by
  unfold bfs6_exit
  simp only [bfs6_n_eq]
  obtain ⟨st, hst⟩ := bfs6_loop_total A A.nrows hn A.nrows 0
    (bfs6_for_init (bfs6_setup A s l)) (by simp [bfs6_for_init, wrap32])
    (by simp [INT32_MAX]) (by omega)
  have h0 : Count A.nrows 0 (bfs6_for_init (bfs6_setup A s l)) := {
    lev := by simp [bfs6_for_init, wrap32]
    tmax := by simp [INT32_MAX]
    tn := Nat.zero_le _
    it := rfl
    vn := by simp [bfs6_for_init, setup_v, bfs6_v0_n]
    qn := by simp [bfs6_for_init, setup_q_n] }
  obtain ⟨t, hcount, hcond⟩ := bfs6_loop_inv A A.nrows (Count A.nrows)
    (fun t st h hc => Count_step A A.nrows hn t st h hc) A.nrows 0 _ st h0 hst
  exact ⟨st, t, hst, hcount, hcond⟩

/-! ## Levels of the returned vector -/

/-- C1: on an n x n matrix without explicit zeros, with n in the range of
`int32_t` and a source `s < n`, `bfs6` returns a vector in which every node `i`
whose least number of edges on a path from `s` is `d` holds the level `d + 1`. -/
theorem bfs6_level_eq_dist_succ (A : GrB_Matrix) (s : Nat) (level0 : Int)
    (hsq : isSquare A) (hn32 : (A.nrows : Int) ≤ INT32_MAX) (hz : noExplicitZero A)
    (hs : s < A.nrows) :
    ∃ r, bfs6 A s level0 = some r ∧
      ∀ i d, isDist A s i d → r.v_output.x i = some ((d : Int) + 1) ∧
        levelOf r.v_output i = (d : Int) + 1 := by
  have hn : A.nrows ≤ GxB_INDEX_MAX := by
    unfold INT32_MAX at hn32
    unfold GxB_INDEX_MAX
    omega
  obtain ⟨st, t, hex, inv, hc⟩ := bfs6_exit_inv A s level0 hsq hs hz hn
  refine ⟨_, bfs6_of_exit A s level0 st hex, ?_⟩
  intro i d hd
  have hdt := Inv_exit_complete A s hsq hs hn32 t st inv hc i d hd
  have hi : i < st.v.n := by rw [inv.vn]; exact hasWalk_lt A s hsq hs d i hd.1
  have hx : (bfs6_finish (bfs6_n A) st).v_output.x i = some ((d : Int) + 1) := by
    rw [finish_x, if_pos hi, inv.stamped i d hdt hd]
    have : ¬ ((d : Int) + 1 = 0) := by omega
    simp [this]
  exact ⟨hx, by simp [levelOf, hx]⟩

/-- C1 (witness): the path 0 -> 1 -> 2 -> 3 from source 0. -/
theorem bfs6_level_eq_dist_succ_witness :
    isSquare pathGraph4 ∧ noExplicitZero pathGraph4 ∧
      ∃ r, bfs6 pathGraph4 0 0 = some r ∧
        ∀ i d, isDist pathGraph4 0 i d → r.v_output.x i = some ((d : Int) + 1) ∧
          levelOf r.v_output i = (d : Int) + 1 :=
  ⟨by decide, by decide,
    bfs6_level_eq_dist_succ pathGraph4 0 0 (by decide) (by decide) (by decide) (by decide)⟩

/-- C2: on an n x n matrix without explicit zeros and a source `s < n`, every
node `i < n` that no path from `s` reaches has no entry in the returned vector,
so that its level reads 0. -/
theorem bfs6_unreachable_level_zero (A : GrB_Matrix) (s : Nat) (level0 : Int)
    (hsq : isSquare A) (hn : A.nrows ≤ GxB_INDEX_MAX) (hz : noExplicitZero A)
    (hs : s < A.nrows) :
    ∃ r, bfs6 A s level0 = some r ∧
      ∀ i, i < A.nrows → ¬ reachable A s i →
        r.v_output.x i = none ∧ levelOf r.v_output i = 0 := by
  obtain ⟨st, t, hex, inv, _⟩ := bfs6_exit_inv A s level0 hsq hs hz hn
  refine ⟨_, bfs6_of_exit A s level0 st hex, ?_⟩
  intro i hi hr
  have hv : st.v.x i = some 0 := by
    apply inv.unstamped i hi
    intro k _
    by_contra hw
    exact hr ⟨k, by simpa using hw⟩
  have hx : (bfs6_finish (bfs6_n A) st).v_output.x i = none := by
    simp [finish_x, inv.vn, hi, hv]
  exact ⟨hx, by simp [levelOf, hx]⟩

/-- C2 (witness): the edge 0 -> 1 on four nodes from source 0; nodes 2 and 3 are
unreachable and the levels read `[1, 2, 0, 0]`. -/
theorem bfs6_unreachable_level_zero_witness :
    (¬ reachable oneEdge4 0 2 ∧ ¬ reachable oneEdge4 0 3 ∧
        (bfs6 oneEdge4 0 0).map (fun r => levels r.v_output) = some [1, 2, 0, 0]) ∧
      ∃ r, bfs6 oneEdge4 0 0 = some r ∧
        ∀ i, i < oneEdge4.nrows → ¬ reachable oneEdge4 0 i →
          r.v_output.x i = none ∧ levelOf r.v_output i = 0 := by
  have hlt := hasWalk_lt oneEdge4 0 (by decide) (by decide)
  have h2 : ∀ j, hasWalk oneEdge4 0 2 j = false := by
    intro j
    by_cases hj : j < 4
    · revert j
      decide
    · by_contra hc
      exact hj (hlt 2 j (by simpa using hc))
  have hreach : ∀ i, reachable oneEdge4 0 i → i = 0 ∨ i = 1 := by
    rintro i ⟨k, hk⟩
    have hk2 : k < 2 := by
      by_contra hge
      rw [hasWalk_dead oneEdge4 0 2 h2 k (by omega) i] at hk
      cases hk
    have hi4 : i < 4 := hlt k i hk
    revert hk
    revert i hi4
    revert k hk2
    decide
  refine ⟨⟨fun h => ?_, fun h => ?_, by decide⟩,
    bfs6_unreachable_level_zero oneEdge4 0 0 (by decide) (by decide) (by decide) (by decide)⟩
  · have := hreach 2 h
    omega
  · have := hreach 3 h
    omega

/-- C3: on an n x n matrix without explicit zeros and a source `s < n`, the
returned vector holds exactly 1 at `s`, whatever edges lead back to `s`. -/
theorem bfs6_source_level_one (A : GrB_Matrix) (s : Nat) (level0 : Int)
    (hsq : isSquare A) (hn : A.nrows ≤ GxB_INDEX_MAX) (hz : noExplicitZero A)
    (hs : s < A.nrows) :
    ∃ r, bfs6 A s level0 = some r ∧ r.v_output.x s = some 1 ∧ levelOf r.v_output s = 1 := by
  obtain ⟨st, t, hex, inv, hc⟩ := bfs6_exit_inv A s level0 hsq hs hz hn
  refine ⟨_, bfs6_of_exit A s level0 st hex, ?_⟩
  have ht := Inv_exit_pos A s hs t st inv hc
  have hv : st.v.x s = some 1 := by
    have := inv.stamped s 0 ht ((isDist_zero A s s).2 rfl)
    simpa using this
  have hx : (bfs6_finish (bfs6_n A) st).v_output.x s = some 1 := by
    simp [finish_x, inv.vn, hs, hv]
  exact ⟨hx, by simp [levelOf, hx]⟩

/-- C3 (witness): a graph with a self-loop at the source and a cycle through it;
also the graph without edges, whose levels read `[1, 0, 0, 0]`. -/
theorem bfs6_source_level_one_witness :
    (isSquare loopCycle3 ∧ edge loopCycle3 0 0 = true ∧ edge loopCycle3 2 0 = true ∧
        (bfs6 loopCycle3 0 0).map (fun r => levels r.v_output) = some [1, 2, 3] ∧
        (bfs6 noEdges4 0 0).map (fun r => levels r.v_output) = some [1, 0, 0, 0]) ∧
      ∃ r, bfs6 loopCycle3 0 0 = some r ∧ r.v_output.x 0 = some 1 ∧
        levelOf r.v_output 0 = 1 :=
  ⟨by decide,
    bfs6_source_level_one loopCycle3 0 0 (by decide) (by decide) (by decide) (by decide)⟩

/-- C4: on an n x n matrix without explicit zeros and a source `s < n`, in the
returned vector a node has level 1 only if it is `s`, and a node `j` with level
`L >= 2` has an edge from some node `i` with level `L - 1`. -/
theorem bfs6_level_has_predecessor (A : GrB_Matrix) (s : Nat) (level0 : Int)
    (hsq : isSquare A) (hn : A.nrows ≤ GxB_INDEX_MAX) (hz : noExplicitZero A)
    (hs : s < A.nrows) :
    ∃ r, bfs6 A s level0 = some r ∧
      ∀ j, (levelOf r.v_output j = 1 → j = s) ∧
        ∀ L : Int, 2 ≤ L → levelOf r.v_output j = L →
          ∃ i, levelOf r.v_output i = L - 1 ∧ edge A i j = true := by
  obtain ⟨st, t, hex, inv, _⟩ := bfs6_exit_inv A s level0 hsq hs hz hn
  refine ⟨_, bfs6_of_exit A s level0 st hex, ?_⟩
  have hlev : ∀ j (L : Int), L ≠ 0 → levelOf (bfs6_finish (bfs6_n A) st).v_output j = L →
      ∃ d, d < t ∧ isDist A s j d ∧ L = (d : Int) + 1 := by
    intro j L hL hj
    by_cases hjn : j < A.nrows
    · rcases Inv_v_cases A s t st inv j hjn with h0 | ⟨d, hdt, hd, hv⟩
      · simp [levelOf, finish_x, inv.vn, hjn, h0] at hj
        exact absurd hj.symm hL
      · have hne : ¬ ((d : Int) + 1 = 0) := by omega
        simp [levelOf, finish_x, inv.vn, hjn, hv, hne] at hj
        exact ⟨d, hdt, hd, hj.symm⟩
    · simp [levelOf, finish_x, inv.vn, hjn] at hj
      exact absurd hj.symm hL
  have hval : ∀ i d, d < t → isDist A s i d →
      levelOf (bfs6_finish (bfs6_n A) st).v_output i = (d : Int) + 1 := by
    intro i d hdt hd
    have hi : i < A.nrows := hasWalk_lt A s hsq hs d i hd.1
    have hne : ¬ ((d : Int) + 1 = 0) := by omega
    simp [levelOf, finish_x, inv.vn, hi, inv.stamped i d hdt hd, hne]
  intro j
  constructor
  · intro h1
    obtain ⟨d, _, hd, hL⟩ := hlev j 1 (by decide) h1
    have hd0 : d = 0 := by omega
    subst hd0
    exact (isDist_zero A s j).1 hd
  · intro L hL2 hj
    obtain ⟨d, hdt, hd, hL⟩ := hlev j L (by omega) hj
    obtain ⟨e, he⟩ : ∃ e, d = e + 1 := ⟨d - 1, by omega⟩
    subst he
    obtain ⟨i, hi, hedge⟩ := isDist_pred A s j e hd
    refine ⟨i, ?_, hedge⟩
    rw [hval i e (by omega) hi, hL]
    push_cast
    ring

/-- C4 (witness): the diamond graph from source 0. -/
theorem bfs6_level_has_predecessor_witness :
    (isSquare diamond4 ∧ noExplicitZero diamond4) ∧
      ∃ r, bfs6 diamond4 0 0 = some r ∧
        ∀ j, (levelOf r.v_output j = 1 → j = 0) ∧
          ∀ L : Int, 2 ≤ L → levelOf r.v_output j = L →
            ∃ i, levelOf r.v_output i = L - 1 ∧ edge diamond4 i j = true :=
  ⟨by decide,
    bfs6_level_has_predecessor diamond4 0 0 (by decide) (by decide) (by decide) (by decide)⟩

/-! ## Return value, final step, termination -/

/-- C5 (counterexample): with source 7 on a 4 x 4 matrix `setElement` is
rejected, and with a 2 x 3 matrix the product is rejected; in both cases
`bfs6` returns `GrB_SUCCESS` and a vector (of levels `[0,0,0,0]`, and with the
source stamped `1 + 2 = 3`). -/
theorem bfs6_rejected_primitive_still_success :
    infoOf (GrB_Vector_setElement_BOOL (GrB_Vector_new Bool (bfs6_n noEdges4)) true 7)
        = .GrB_INVALID_INDEX ∧
      (bfs6 noEdges4 7 0).map (fun r => (r.info, r.v_output.toList))
        = some (.GrB_SUCCESS, [none, none, none, none]) ∧
      infoOf (GrB_vxm (bfs6_setup wide23 0 0).q (some (bfs6_setup wide23 0 0).v) none Boolean
          (bfs6_setup wide23 0 0).q wide23 (some bfs6_desc)) = .GrB_DIMENSION_MISMATCH ∧
      (bfs6 wide23 0 0).map (fun r => (r.info, r.v_output.toList))
        = some (.GrB_SUCCESS, [some 3, none]) := by
  decide

/-- C5 (amended): `bfs6` inspects no return code; for every matrix (of at most
`GxB_INDEX_MAX` rows) and every source index, also a rejected one, it runs to
its end, returns `GrB_SUCCESS` and hands over a vector of length `nrows (A)`. -/
theorem bfs6_always_success (A : GrB_Matrix) (s : Nat) (level0 : Int)
    (hn : A.nrows ≤ GxB_INDEX_MAX) :
    ∃ r, bfs6 A s level0 = some r ∧ r.info = .GrB_SUCCESS ∧ r.v_output.n = A.nrows := by
  obtain ⟨st, t, hex, c, _⟩ := bfs6_exit_count A s level0 hn
  exact ⟨_, bfs6_of_exit A s level0 st hex, finish_info _ st, by rw [finish_n, c.vn]⟩

/-- C5 (witness): source 7 on a 4 x 4 matrix. -/
theorem bfs6_always_success_witness :
    (¬ 7 < noEdges4.nrows) ∧
      ∃ r, bfs6 noEdges4 7 0 = some r ∧ r.info = .GrB_SUCCESS ∧
        r.v_output.n = noEdges4.nrows :=
  ⟨by decide, bfs6_always_success noEdges4 7 0 (by decide)⟩

/-- C6 (counterexample): with the single edge 0 -> 1 on 4 nodes and source 0,
the returned vector has no entry at the indices 2 and 3. -/
theorem bfs6_result_not_dense :
    (bfs6 oneEdge4 0 0).map (fun r => r.v_output.toList)
      = some [some 1, some 2, none, none] := by
  decide

/-- C6 (amended): for every valid input, `v` holds an explicit value at every
index in `[0, n)` when the loop exits, and the final step keeps exactly the
nonzero ones: a node that was never stamped (value 0) has no entry in the
returned vector, a stamped node keeps its value. -/
theorem bfs6_final_step_sparse (A : GrB_Matrix) (s : Nat) (level0 : Int)
    (hsq : isSquare A) (hn : A.nrows ≤ GxB_INDEX_MAX) (hz : noExplicitZero A)
    (hs : s < A.nrows) :
    ∃ st r, bfs6_exit A s level0 = some st ∧ bfs6 A s level0 = some r ∧
      ∀ i, i < A.nrows →
        (∃ z, st.v.x i = some z) ∧
        (st.v.x i = some 0 → r.v_output.x i = none) ∧
        (∀ z, z ≠ 0 → st.v.x i = some z → r.v_output.x i = some z) := by
  obtain ⟨st, t, hex, inv, _⟩ := bfs6_exit_inv A s level0 hsq hs hz hn
  refine ⟨st, _, hex, bfs6_of_exit A s level0 st hex, ?_⟩
  intro i hi
  refine ⟨?_, ?_, ?_⟩
  · rcases Inv_v_cases A s t st inv i hi with h0 | ⟨d, _, _, hv⟩
    · exact ⟨0, h0⟩
    · exact ⟨_, hv⟩
  · intro h0
    simp [finish_x, inv.vn, hi, h0]
  · intro z hz0 hv
    simp [finish_x, inv.vn, hi, hv, hz0]

/-- C6 (witness): the edge 0 -> 1 on four nodes from source 0. -/
theorem bfs6_final_step_sparse_witness :
    (isSquare oneEdge4 ∧ noExplicitZero oneEdge4) ∧
      ∃ st r, bfs6_exit oneEdge4 0 0 = some st ∧ bfs6 oneEdge4 0 0 = some r ∧
        ∀ i, i < oneEdge4.nrows →
          (∃ z, st.v.x i = some z) ∧
          (st.v.x i = some 0 → r.v_output.x i = none) ∧
          (∀ z, z ≠ 0 → st.v.x i = some z → r.v_output.x i = some z) :=
  ⟨by decide,
    bfs6_final_step_sparse oneEdge4 0 0 (by decide) (by decide) (by decide) (by decide)⟩

/-- C7: for every matrix with `n` rows (at most `GxB_INDEX_MAX`) and every
source index, the loop exits after at most `n` executions of its body; for
`n = 0` the body is never executed and the returned vector has length 0. -/
theorem bfs6_at_most_n_iterations (A : GrB_Matrix) (s : Nat) (level0 : Int)
    (hn : A.nrows ≤ GxB_INDEX_MAX) :
    ∃ st r, bfs6_exit A s level0 = some st ∧ bfs6 A s level0 = some r ∧
      st.iters ≤ A.nrows ∧
      (A.nrows = 0 → st.iters = 0 ∧ r.v_output.n = 0 ∧ r.v_output.toList = []) := by
  obtain ⟨st, t, hex, c, _⟩ := bfs6_exit_count A s level0 hn
  refine ⟨st, _, hex, bfs6_of_exit A s level0 st hex, by rw [c.it]; exact c.tn, ?_⟩
  intro h0
  have hlen : (bfs6_finish (bfs6_n A) st).v_output.n = 0 := by rw [finish_n, c.vn, h0]
  refine ⟨?_, hlen, ?_⟩
  · have := c.tn
    rw [c.it]
    omega
  · simp [GrB_Vector.toList, hlen]

/-- C7 (witness): the complete graph on four nodes; the body runs twice. -/
theorem bfs6_at_most_n_iterations_witness :
    (bfs6_exit complete4 0 0).map (fun st => st.iters) = some 2 ∧
      ∃ st r, bfs6_exit complete4 0 0 = some st ∧ bfs6 complete4 0 0 = some r ∧
        st.iters ≤ complete4.nrows ∧
        (complete4.nrows = 0 → st.iters = 0 ∧ r.v_output.n = 0 ∧ r.v_output.toList = []) :=
  ⟨by decide, bfs6_at_most_n_iterations complete4 0 0 (by decide)⟩

/-- C8: a call of `bfs6` gives the same result whatever value the level
counter has when the call starts; in particular a second call, started with
the counter the first call left, returns the same level vector as the first. -/
theorem bfs6_independent_of_level_counter (A : GrB_Matrix) (s : Nat) (level0 : Int)
    (hn : A.nrows ≤ GxB_INDEX_MAX) :
    ∃ r1 r2, bfs6 A s level0 = some r1 ∧ bfs6 A s r1.level = some r2 ∧
      r2.v_output = r1.v_output ∧ ∀ l, bfs6 A s l = some r1 := by
  obtain ⟨st, _, hex, _, _⟩ := bfs6_exit_count A s level0 hn
  obtain ⟨r, hr⟩ : ∃ r, bfs6 A s level0 = some r := ⟨_, bfs6_of_exit A s level0 st hex⟩
  have hany : ∀ l, bfs6 A s l = some r := by
    intro l
    rw [← hr]
    rfl
  exact ⟨r, r, hr, hany _, rfl, hany⟩

/-- C8 (witness): the diamond graph; the first call leaves the counter at 4. -/
theorem bfs6_independent_of_level_counter_witness :
    (bfs6 diamond4 0 0).map (fun r => r.level) = some 4 ∧
      ∃ r1 r2, bfs6 diamond4 0 0 = some r1 ∧ bfs6 diamond4 0 r1.level = some r2 ∧
        r2.v_output = r1.v_output ∧ ∀ l, bfs6 diamond4 0 l = some r1 :=
  ⟨by decide, bfs6_independent_of_level_counter diamond4 0 0 (by decide)⟩

/-! ## Pattern only -/

theorem filterMap_congr_mem {α β : Type} (f g : α → Option β) (l : List α)
    (h : ∀ a, a ∈ l → f a = g a) : l.filterMap f = l.filterMap g := by
  induction l with
  | nil => rfl
  | cons a l ih =>
    have ha := h a (List.mem_cons_self a l)
    have hl := ih (fun b hb => h b (List.mem_cons_of_mem a hb))
    simp only [List.filterMap_cons, ha, hl]

theorem vxmEntry_congr (S : GrB_Semiring) (u : GrB_Vector Bool) (A B : GrB_Matrix)
    (hp : samePattern A B) (hzA : noExplicitZero A) (hzB : noExplicitZero B) :
    vxmEntry S u A = vxmEntry S u B := by
  obtain ⟨hr, hc, hx⟩ := hp
  funext j
  unfold vxmEntry
  rw [← hc]
  by_cases hj : j < A.ncols
  · have hterms : vxmTerms S u A j = vxmTerms S u B j := by
      unfold vxmTerms
      rw [← hr]
      apply filterMap_congr_mem
      intro i hi
      rw [List.mem_range] at hi
      have h1 := hx i hi j hj
      have h2 := hzA i hi j hj
      have h3 := hzB i (by omega) j (by omega)
      cases hA : A.x i j with
      | none =>
        rw [hA] at h1
        have hB : B.x i j = none := by
          cases hB : B.x i j with
          | none => rfl
          | some b => rw [hB] at h1; cases h1
        rw [hB]
      | some a =>
        rw [hA] at h1 h2
        cases hB : B.x i j with
        | none => rw [hB] at h1; cases h1
        | some b =>
          rw [hB] at h3
          have ha : a ≠ 0 := fun h => h2 (by rw [h])
          have hb : b ≠ 0 := fun h => h3 (by rw [h])
          cases u.x i with
          | none => rfl
          | some c =>
            have ha2 : (a != 0) = true := by simp [ha]
            have hb2 : (b != 0) = true := by simp [hb]
            simp only [ha2, hb2]
    rw [if_pos hj, if_pos hj, hterms]
  · rw [if_neg hj, if_neg hj]

theorem bfs6_body_congr (A B : GrB_Matrix) (hp : samePattern A B) (hzA : noExplicitZero A)
    (hzB : noExplicitZero B) (st : BfsState) : bfs6_body A st = bfs6_body B st := by
  have hv := vxmEntry_congr Boolean st.q A B hp hzA hzB
  obtain ⟨hr, hc, _⟩ := hp
  simp only [bfs6_body, GrB_vxm, hv, hr, hc]

theorem bfs6_loop_congr (A B : GrB_Matrix) (hp : samePattern A B) (hzA : noExplicitZero A)
    (hzB : noExplicitZero B) (n : Nat) :
    ∀ fuel st, bfs6_loop A n fuel st = bfs6_loop B n fuel st := by
  intro fuel
  induction fuel with
  | zero => intro st; rfl
  | succ fuel ih =>
    intro st
    simp only [bfs6_loop, bfs6_body_congr A B hp hzA hzB st, ih]

theorem bfs6_setup_congr (A B : GrB_Matrix) (hr : A.nrows = B.nrows) (s : Nat) (l : Int) :
    bfs6_setup A s l = bfs6_setup B s l := by
  have hv : bfs6_v0 A = bfs6_v0 B := by
    simp only [bfs6_v0, GrB_Matrix_nrows, hr]
  simp only [bfs6_setup, bfs6_n, hv]

/-- C9: two matrices with the same dimensions and the same pattern, whose
explicit entries are all nonzero, give the same result of `bfs6` from every
source: the values of the entries play no part. -/
theorem bfs6_depends_on_pattern_only (A B : GrB_Matrix) (s : Nat) (level0 : Int)
    (hn : A.nrows ≤ GxB_INDEX_MAX) (hp : samePattern A B) (hzA : noExplicitZero A)
    (hzB : noExplicitZero B) :
    ∃ r, bfs6 A s level0 = some r ∧ bfs6 B s level0 = some r := by
  obtain ⟨st, _, hex, _, _⟩ := bfs6_exit_count A s level0 hn
  have hn2 : bfs6_n A = bfs6_n B := by rw [bfs6_n_eq, bfs6_n_eq]; exact hp.1
  have hexB : bfs6_exit B s level0 = some st := by
    rw [← hex]
    unfold bfs6_exit
    simp only [← hn2, bfs6_setup_congr A B hp.1 s level0]
    exact (bfs6_loop_congr A B hp hzA hzB _ _ _).symm
  refine ⟨_, bfs6_of_exit A s level0 st hex, ?_⟩
  rw [bfs6_of_exit B s level0 st hexB, hn2]

/-- C9 (witness): the diamond graph with values 1 and with other nonzero values. -/
theorem bfs6_depends_on_pattern_only_witness :
    (samePattern diamond4 diamond4_valued ∧ noExplicitZero diamond4 ∧
        noExplicitZero diamond4_valued) ∧
      ∃ r, bfs6 diamond4 0 0 = some r ∧ bfs6 diamond4_valued 0 0 = some r :=
  ⟨by decide,
    bfs6_depends_on_pattern_only diamond4 diamond4_valued 0 0 (by decide) (by decide)
      (by decide) (by decide)⟩

/-! ## Sufficiency of n iterations -/

theorem pathGraph_noExplicitZero (n : Nat) : noExplicitZero (pathGraph n) := by
  intro i _ j _
  simp only [pathGraph]
  split <;> simp

theorem pathGraph_edge (n i j : Nat) :
    edge (pathGraph n) i j = true ↔ i < n ∧ j < n ∧ j = i + 1 := by
  rw [edge_iff]
  simp only [pathGraph]
  constructor
  · rintro ⟨h1, h2, h3⟩
    refine ⟨h1, h2, ?_⟩
    by_contra hne
    simp [hne] at h3
  · rintro ⟨h1, h2, h3⟩
    exact ⟨h1, h2, by simp [h3]⟩

theorem pathGraph_hasWalk (n : Nat) :
    ∀ k, k < n → ∀ i, hasWalk (pathGraph n) 0 k i = true ↔ i = k := by
  intro k
  induction k with
  | zero =>
    intro _ i
    simp [hasWalk]
  | succ k ih =>
    intro hk i
    rw [hasWalk_succ]
    constructor
    · rintro ⟨m, hm, he⟩
      rw [ih (by omega) m] at hm
      rw [pathGraph_edge] at he
      omega
    · intro hi
      refine ⟨k, (ih (by omega) k).2 rfl, ?_⟩
      rw [pathGraph_edge]
      omega

theorem pathGraph_isDist (n t : Nat) (ht : t < n) : isDist (pathGraph n) 0 t t := by
  refine ⟨(pathGraph_hasWalk n t ht t).2 rfl, ?_⟩
  intro k hk
  by_contra hc
  have := (pathGraph_hasWalk n k (by omega) t).1 (by simpa using hc)
  omega

/-- What the embedding computes past the overflow, where `level++` is taken to
wrap in two's complement (C leaves it undefined): on the path
`0 -> 1 -> ...` with 2^31 nodes and source 0 the counter becomes -2^31 after
the iteration with level 2^31 - 1, the loop exits with `successor` still true,
node 2^31 - 1 in the frontier and not stamped, and this reachable node has no
entry in the result. -/
theorem bfs6_frontier_left_beyond_int32 :
    isSquare (pathGraph 2147483648) ∧ noExplicitZero (pathGraph 2147483648) ∧
      isDist (pathGraph 2147483648) 0 2147483647 2147483647 ∧
      ∃ st r, bfs6_exit (pathGraph 2147483648) 0 0 = some st ∧
        bfs6 (pathGraph 2147483648) 0 0 = some r ∧
        st.iters = 2147483647 ∧ st.level = -2147483648 ∧ st.successor = true ∧
        st.q.x 2147483647 = some true ∧ st.v.x 2147483647 = some 0 ∧
        r.v_output.x 2147483647 = none := by
  have hsq : isSquare (pathGraph 2147483648) := rfl
  have hz := pathGraph_noExplicitZero 2147483648
  have hs : 0 < (pathGraph 2147483648).nrows := by
    show 0 < 2147483648
    omega
  have hn : (pathGraph 2147483648).nrows ≤ GxB_INDEX_MAX := by
    show 2147483648 ≤ GxB_INDEX_MAX
    unfold GxB_INDEX_MAX
    omega
  have hN : (pathGraph 2147483648).nrows = 2147483648 := rfl
  obtain ⟨st, t, hex, inv, hc⟩ := bfs6_exit_inv (pathGraph 2147483648) 0 0 hsq hs hz hn
  have htmax := inv.tmax
  unfold INT32_MAX at htmax
  have hdt : isDist (pathGraph 2147483648) 0 t t := pathGraph_isDist 2147483648 t (by omega)
  have hsucc : st.successor = true := inv.succ.2 ⟨t, hdt⟩
  have ht : t = 2147483647 := by
    by_contra hne
    have hle : toU64 st.level ≤ (pathGraph 2147483648).nrows := by
      rw [inv.lev]
      apply cond_level_conv
      · unfold INT32_MAX; omega
      · rw [hN]; omega
    simp [bfs6_cond, hsucc, hle] at hc
  subst ht
  have hv0 : st.v.x 2147483647 = some 0 :=
    inv.unstamped 2147483647 (by rw [hN]; omega) hdt.2
  refine ⟨hsq, hz, hdt, st, _, hex, bfs6_of_exit _ 0 0 st hex, inv.it, ?_, hsucc,
    inv.front _ hdt, hv0, ?_⟩
  · rw [inv.lev]
    unfold wrap32
    omega
  · rw [finish_x, inv.vn, hN, if_pos (by omega), hv0]
    simp

/-- Sufficiency of n iterations inside the range of `int32_t`: on an n x n
matrix without explicit zeros, with n at most `INT32_MAX` and a source `s < n`, the loop of `bfs6` exits by its
termination check with an empty frontier: `successor` is false and `q` has no
entry, so no discovered node is left unstamped. -/
theorem bfs6_frontier_empty_at_exit (A : GrB_Matrix) (s : Nat) (level0 : Int)
    (hsq : isSquare A) (hn32 : (A.nrows : Int) ≤ INT32_MAX) (hz : noExplicitZero A)
    (hs : s < A.nrows) :
    ∃ st, bfs6_exit A s level0 = some st ∧ st.successor = false ∧ ∀ i, st.q.x i = none := by
  have hn : A.nrows ≤ GxB_INDEX_MAX := by
    unfold INT32_MAX at hn32
    unfold GxB_INDEX_MAX
    omega
  obtain ⟨st, t, hex, inv, hc⟩ := bfs6_exit_inv A s level0 hsq hs hz hn
  have hnone : ∀ i, ¬ isDist A s i t := by
    intro i hd
    have := Inv_exit_complete A s hsq hs hn32 t st inv hc i t hd
    omega
  refine ⟨st, hex, ?_, fun i => inv.nofront i (hnone i)⟩
  cases hsucc : st.successor with
  | false => rfl
  | true =>
    obtain ⟨i, hi⟩ := inv.succ.1 hsucc
    exact absurd hi (hnone i)

/-- The path 0 -> 1 -> 2 -> 3 needs all four iterations and gives
`[1, 2, 3, 4]`. -/
theorem bfs6_frontier_empty_at_exit_witness :
    ((bfs6_exit pathGraph4 0 0).map (fun st => st.iters) = some 4 ∧
        (bfs6 pathGraph4 0 0).map (fun r => levels r.v_output) = some [1, 2, 3, 4]) ∧
      ∃ st, bfs6_exit pathGraph4 0 0 = some st ∧ st.successor = false ∧
        ∀ i, st.q.x i = none :=
  ⟨by decide,
    bfs6_frontier_empty_at_exit pathGraph4 0 0 (by decide) (by decide) (by decide)
      (by decide)⟩

/-! ## Every state of the loop -/

theorem bfs6_iter_inv (A : GrB_Matrix) (n : Nat) (P : Nat → BfsState → Prop)
    (hstep : ∀ t st, P t st → bfs6_cond n st = true → P (t + 1) (bfs6_body A st)) :
    ∀ k t st0 st, P t st0 → bfs6_iter A n k st0 = some st → P (t + k) st := by
  intro k
  induction k with
  | zero =>
    intro t st0 st hP h
    simp only [bfs6_iter, Option.some.injEq] at h
    subst h
    exact hP
  | succ k ih =>
    intro t st0 st hP h
    unfold bfs6_iter at h
    split at h
    · rename_i hc
      have := ih (t + 1) _ _ (hstep t st0 hP hc) h
      have he : t + 1 + k = t + (k + 1) := by omega
      rw [he] at this
      exact this
    · cases h

theorem bfs6_loop_of_iter (A : GrB_Matrix) (n : Nat) :
    ∀ k st0 st fuel st', bfs6_iter A n k st0 = some st → bfs6_loop A n fuel st0 = some st' →
      ∃ fuel', bfs6_loop A n fuel' st = some st' := by
  intro k
  induction k with
  | zero =>
    intro st0 st fuel st' h hl
    simp only [bfs6_iter, Option.some.injEq] at h
    subst h
    exact ⟨fuel, hl⟩
  | succ k ih =>
    intro st0 st fuel st' h hl
    unfold bfs6_iter at h
    split at h
    · rename_i hc
      cases fuel with
      | zero =>
        simp [bfs6_loop, hc] at hl
      | succ fuel =>
        simp only [bfs6_loop, hc, if_true] at hl
        exact ih _ _ fuel st' h hl
    · cases h

/-- On a valid input the invariant holds at every test of the loop condition. -/
theorem bfs6_at_inv (A : GrB_Matrix) (s : Nat) (l : Int) (hsq : isSquare A)
    (hs : s < A.nrows) (hz : noExplicitZero A) (hn : A.nrows ≤ GxB_INDEX_MAX) (k : Nat)
    (st : BfsState) (h : bfs6_at A s l k = some st) : Inv A s k st := by
  unfold bfs6_at at h
  rw [bfs6_n_eq] at h
  have := bfs6_iter_inv A A.nrows (Inv A s)
    (fun t st h hc => Inv_step A s hsq hs hz hn t st h hc) k 0 _ st (Inv_init A s l hs) h
  simpa using this

/-- On a valid input the loop exits, no earlier than any state it passes. -/
theorem bfs6_at_exit (A : GrB_Matrix) (s : Nat) (l : Int) (hsq : isSquare A)
    (hs : s < A.nrows) (hz : noExplicitZero A) (hn : A.nrows ≤ GxB_INDEX_MAX) (k : Nat)
    (st : BfsState) (h : bfs6_at A s l k = some st) :
    ∃ st' t, bfs6_exit A s l = some st' ∧ Inv A s t st' ∧ k ≤ t ∧
      bfs6_cond A.nrows st' = false := by
  obtain ⟨st', _, hex, _, _⟩ := bfs6_exit_inv A s l hsq hs hz hn
  have hinv := bfs6_at_inv A s l hsq hs hz hn k st h
  have hex2 := hex
  unfold bfs6_exit at hex2
  unfold bfs6_at at h
  obtain ⟨fuel, hf⟩ := bfs6_loop_of_iter A (bfs6_n A) k _ st _ st' h hex2
  rw [bfs6_n_eq] at hf
  obtain ⟨t, ⟨hI, hk⟩, hc⟩ := bfs6_loop_inv A A.nrows (fun t st => Inv A s t st ∧ k ≤ t)
    (fun t st h hc => ⟨Inv_step A s hsq hs hz hn t st h.1 hc, by omega⟩) fuel k st st'
    ⟨hinv, le_refl k⟩ hf
  exact ⟨st', t, hex, hI, hk, hc⟩

/-- The level counter has not wrapped in a state whose loop condition holds. -/
theorem Inv_level_of_cond (A : GrB_Matrix) (s : Nat) (hn : A.nrows ≤ GxB_INDEX_MAX) (t : Nat)
    (st : BfsState) (inv : Inv A s t st) (hc : bfs6_cond A.nrows st = true) :
    st.level = (t : Int) + 1 := by
  simp only [bfs6_cond, Bool.and_eq_true, decide_eq_true_eq] at hc
  have hlv := hc.2
  rw [inv.lev] at hlv
  obtain ⟨_, ht2⟩ := cond_level A.nrows t hn inv.tmax hlv
  rw [inv.lev]
  apply wrap32_of_range
  · omega
  · unfold INT32_MAX at ht2; omega

/-! ## Invariants of the traversal -/

/-- C11: on a valid input, a node that holds a stamped (nonzero) level in `v`
before an iteration of the loop holds the same entry after the iteration and
in the vector that `bfs6` returns. -/
theorem bfs6_stamped_level_final (A : GrB_Matrix) (s : Nat) (level0 : Int)
    (hsq : isSquare A) (hn : A.nrows ≤ GxB_INDEX_MAX) (hz : noExplicitZero A)
    (hs : s < A.nrows) :
    ∀ k st, bfs6_at A s level0 k = some st → bfs6_cond (bfs6_n A) st = true →
      ∀ i z, i < A.nrows → z ≠ 0 → st.v.x i = some z →
        (bfs6_body A st).v.x i = some z ∧
          ∃ r, bfs6 A s level0 = some r ∧ r.v_output.x i = some z := by
  intro k st hat hc i z hi hz0 hv
  rw [bfs6_n_eq] at hc
  have inv := bfs6_at_inv A s level0 hsq hs hz hn k st hat
  rcases Inv_v_cases A s k st inv i hi with h0 | ⟨d, hdk, hd, hvd⟩
  · rw [hv] at h0
    exact absurd (Option.some.inj h0) hz0
  · have hzd : z = (d : Int) + 1 := by
      rw [hv] at hvd
      exact Option.some.inj hvd
    subst hzd
    have inv1 := Inv_step A s hsq hs hz hn k st inv hc
    refine ⟨inv1.stamped i d (by omega) hd, ?_⟩
    obtain ⟨st', t, hex, inv', hkt, _⟩ := bfs6_at_exit A s level0 hsq hs hz hn k st hat
    refine ⟨_, bfs6_of_exit A s level0 st' hex, ?_⟩
    rw [finish_x, inv'.vn, if_pos hi, inv'.stamped i d (by omega) hd]
    simp [hz0]

/-- C11 (witness): the cycle 0 -> 1 -> 2 -> 0 from source 0 gives `[1, 2, 3]`;
node 0 keeps its level 1 when the cycle reaches back to it. -/
theorem bfs6_stamped_level_final_witness :
    ((bfs6 cycle3 0 0).map (fun r => levels r.v_output) = some [1, 2, 3] ∧
        (bfs6_at cycle3 0 0 2).map (fun st => (bfs6_cond (bfs6_n cycle3) st, st.v.x 0))
          = some (true, some 1)) ∧
      ∀ k st, bfs6_at cycle3 0 0 k = some st → bfs6_cond (bfs6_n cycle3) st = true →
        ∀ i z, i < cycle3.nrows → z ≠ 0 → st.v.x i = some z →
          (bfs6_body cycle3 st).v.x i = some z ∧
            ∃ r, bfs6 cycle3 0 0 = some r ∧ r.v_output.x i = some z :=
  ⟨by decide,
    bfs6_stamped_level_final cycle3 0 0 (by decide) (by decide) (by decide) (by decide)⟩

/-- C12: on a valid input, at the start of the iteration that follows `k`
executions of the body the level counter is `k + 1`, every entry of `q` is
`true`, and the pattern of `q` is exactly the set of nodes at distance `k`
from `s`; no node is in the pattern of `q` at two different iterations. -/
theorem bfs6_frontier_is_distance_layer (A : GrB_Matrix) (s : Nat) (level0 : Int)
    (hsq : isSquare A) (hn : A.nrows ≤ GxB_INDEX_MAX) (hz : noExplicitZero A)
    (hs : s < A.nrows) :
    (∀ k st, bfs6_at A s level0 k = some st → bfs6_cond (bfs6_n A) st = true →
        st.level = (k : Int) + 1 ∧
          ∀ i, (st.q.x i ≠ none ↔ isDist A s i k) ∧ (st.q.x i ≠ none → st.q.x i = some true)) ∧
      ∀ k1 k2 st1 st2 i, bfs6_at A s level0 k1 = some st1 → bfs6_at A s level0 k2 = some st2 →
        st1.q.x i ≠ none → st2.q.x i ≠ none → k1 = k2 := by
  have hq : ∀ k st, bfs6_at A s level0 k = some st → ∀ i, st.q.x i ≠ none → isDist A s i k := by
    intro k st hat i hne
    have inv := bfs6_at_inv A s level0 hsq hs hz hn k st hat
    by_contra hd
    exact hne (inv.nofront i hd)
  constructor
  · intro k st hat hc
    rw [bfs6_n_eq] at hc
    have inv := bfs6_at_inv A s level0 hsq hs hz hn k st hat
    refine ⟨Inv_level_of_cond A s hn k st inv hc, ?_⟩
    intro i
    refine ⟨⟨hq k st hat i, ?_⟩, ?_⟩
    · intro hd
      rw [inv.front i hd]
      simp
    · intro hne
      exact inv.front i (hq k st hat i hne)
  · intro k1 k2 st1 st2 i h1 h2 hq1 hq2
    exact isDist_unique A s i k1 k2 (hq k1 st1 h1 i hq1) (hq k2 st2 h2 i hq2)

/-- C12 (witness): the diamond graph from source 0; at the second iteration the
frontier holds the nodes 1 and 2. -/
theorem bfs6_frontier_is_distance_layer_witness :
    ((bfs6_at diamond4 0 0 1).map (fun st => (st.level, st.q.toList))
        = some (2, [none, some true, some true, none])) ∧
      ((∀ k st, bfs6_at diamond4 0 0 k = some st → bfs6_cond (bfs6_n diamond4) st = true →
          st.level = (k : Int) + 1 ∧
            ∀ i, (st.q.x i ≠ none ↔ isDist diamond4 0 i k) ∧
              (st.q.x i ≠ none → st.q.x i = some true)) ∧
        ∀ k1 k2 st1 st2 i, bfs6_at diamond4 0 0 k1 = some st1 →
          bfs6_at diamond4 0 0 k2 = some st2 →
          st1.q.x i ≠ none → st2.q.x i ≠ none → k1 = k2) :=
  ⟨by decide,
    bfs6_frontier_is_distance_layer diamond4 0 0 (by decide) (by decide) (by decide)
      (by decide)⟩

/-! ## The steps of one iteration -/

theorem vxmEntry_some_lt (u : GrB_Vector Bool) (A : GrB_Matrix) (j : Nat)
    (hu : ∀ i, i < A.nrows → ∀ b, u.x i = some b → b = true) (hz : noExplicitZero A)
    (h : ∃ i, u.x i ≠ none ∧ edge A i j = true) : vxmEntry Boolean u A j = some true := by
  let u' : GrB_Vector Bool := ⟨u.n, fun i => if i < A.nrows then u.x i else none⟩
  have hterms : vxmTerms Boolean u A j = vxmTerms Boolean u' A j := by
    unfold vxmTerms
    apply filterMap_congr_mem
    intro i hi
    rw [List.mem_range] at hi
    simp [u', hi]
  have hentry : vxmEntry Boolean u A j = vxmEntry Boolean u' A j := by
    unfold vxmEntry
    rw [hterms]
  rw [hentry]
  apply vxmEntry_some u' A j _ hz
  · obtain ⟨i, hi, he⟩ := h
    have hlt := ((edge_iff A i j).1 he).1
    exact ⟨i, by simpa [u', hlt] using hi, he⟩
  · intro i b hb
    by_cases hi : i < A.nrows
    · simp only [u', hi, if_true] at hb
      exact hu i hi b hb
    · simp [u', hi] at hb

theorem bfs6_at_lengths (A : GrB_Matrix) (s : Nat) (l : Int) (k : Nat) (st : BfsState)
    (h : bfs6_at A s l k = some st) : st.v.n = A.nrows ∧ st.q.n = A.nrows := by
  unfold bfs6_at at h
  have := bfs6_iter_inv A (bfs6_n A) (fun _ st => st.v.n = A.nrows ∧ st.q.n = A.nrows)
    (fun t st h _ => ⟨by rw [body_v_n, h.1], by rw [body_q_n, h.2]⟩) k 0 _ st
    ⟨by simp [bfs6_for_init, setup_v, bfs6_v0_n], by simp [bfs6_for_init, setup_q_n]⟩ h
  exact this

/-- C13: in every state of the loop on a square matrix without explicit zeros
in which all entries of `q` are `true`, the masked product leaves `q` with
exactly the pattern of the nodes `j` that have an entry `A (i, j)` from some
`i` in the old pattern of `q` and are not stamped in `v` (the mask of the
product, `v` after the stamp step); every entry of the new `q` is `true`. -/
theorem bfs6_advance_pattern (A : GrB_Matrix) (s : Nat) (level0 : Int) (k : Nat)
    (st : BfsState) (hsq : isSquare A) (hz : noExplicitZero A)
    (hat : bfs6_at A s level0 k = some st)
    (hq : ∀ i, i < st.q.n → ∀ b, st.q.x i = some b → b = true) :
    ∀ j, ((bfs6_body A st).q.x j ≠ none ↔
          (∃ i, st.q.x i ≠ none ∧ edge A i j = true) ∧ isStamped (bfs6_body A st).v j = false) ∧
        ((bfs6_body A st).q.x j ≠ none → (bfs6_body A st).q.x j = some true) := by
  obtain ⟨hvn, hqn⟩ := bfs6_at_lengths A s level0 k st hat
  have hqv : st.q.n = st.v.n := by rw [hqn, hvn]
  have hqc : st.q.n = A.ncols := by rw [hqn]; exact hsq.symm
  have hq2 : ∀ i, i < A.nrows → ∀ b, st.q.x i = some b → b = true := by
    intro i hi
    exact hq i (by rw [hqn]; exact hi)
  intro j
  have hx := body_q_x A st hqv hqn hqc j
  by_cases hj : j < st.q.n
  · rw [if_pos hj] at hx
    by_cases he : ∃ i, st.q.x i ≠ none ∧ edge A i j = true
    · have hsome := vxmEntry_some_lt st.q A j hq2 hz he
      rw [hsome] at hx
      cases hv : (bfs6_body A st).v.x j with
      | none =>
        rw [hv] at hx
        simp [hx, he, isStamped, hv]
      | some z =>
        rw [hv] at hx
        by_cases hz0 : z = 0
        · simp [hx, he, isStamped, hv, hz0]
        · simp [hx, isStamped, hv, hz0]
    · have hnone := vxmEntry_none Boolean st.q A j he
      rw [hnone] at hx
      have hxn : (bfs6_body A st).q.x j = none := by
        rw [hx]
        cases (bfs6_body A st).v.x j with
        | none => rfl
        | some z => simp
      simp [hxn, he]
  · rw [if_neg hj] at hx
    have he : ¬ ∃ i, st.q.x i ≠ none ∧ edge A i j = true := by
      rintro ⟨i, _, hedge⟩
      have := ((edge_iff A i j).1 hedge).2.1
      omega
    simp [hx, he]

/-- C13 (witness): the cycle 0 -> 1 -> 2 -> 0 from source 0, third iteration:
the frontier is node 2, its only successor 0 is stamped, and the product
leaves `q` without entry. -/
theorem bfs6_advance_pattern_witness :
    (bfs6_at cycle3 0 0 2 = some cycle3_at2 ∧
      cycle3_at2.q.toList = [none, none, some true] ∧
      cycle3_at2.v.toList = [some 1, some 2, some 0] ∧
      (bfs6_body cycle3 cycle3_at2).v.toList = [some 1, some 2, some 3] ∧
      (bfs6_body cycle3 cycle3_at2).q.toList = [none, none, none]) ∧
      ∀ j, ((bfs6_body cycle3 cycle3_at2).q.x j ≠ none ↔
            (∃ i, cycle3_at2.q.x i ≠ none ∧ edge cycle3 i j = true) ∧
              isStamped (bfs6_body cycle3 cycle3_at2).v j = false) ∧
          ((bfs6_body cycle3 cycle3_at2).q.x j ≠ none →
            (bfs6_body cycle3 cycle3_at2).q.x j = some true) :=
  ⟨⟨by rfl, by decide, by decide, by decide, by decide⟩,
    bfs6_advance_pattern cycle3 0 0 2 cycle3_at2 (by decide) (by decide) (by rfl)
      (by decide)⟩

/-- C14: on a valid input, in every iteration of the loop the apply with the
`PLUS` accumulator leaves in `v`, at every node of the pattern of `q`, exactly
the current value of the level counter, which is `k + 1` after `k` earlier
iterations. -/
theorem bfs6_stamp_writes_level (A : GrB_Matrix) (s : Nat) (level0 : Int)
    (hsq : isSquare A) (hn : A.nrows ≤ GxB_INDEX_MAX) (hz : noExplicitZero A)
    (hs : s < A.nrows) :
    ∀ k st, bfs6_at A s level0 k = some st → bfs6_cond (bfs6_n A) st = true →
      st.level = (k : Int) + 1 ∧
        ∀ i, st.q.x i ≠ none → (bfs6_body A st).v.x i = some st.level := by
  intro k st hat hc
  rw [bfs6_n_eq] at hc
  have inv := bfs6_at_inv A s level0 hsq hs hz hn k st hat
  have hlevel := Inv_level_of_cond A s hn k st inv hc
  refine ⟨hlevel, ?_⟩
  intro i hne
  have hd : isDist A s i k := by
    by_contra hd
    exact hne (inv.nofront i hd)
  have inv1 := Inv_step A s hsq hs hz hn k st inv hc
  rw [hlevel]
  exact inv1.stamped i k (by omega) hd

/-- C14 (witness): the diamond graph from source 0 gives `[1, 2, 2, 3]`; node 3
has an edge from both nodes of the second frontier and is stamped 3. -/
theorem bfs6_stamp_writes_level_witness :
    ((bfs6 diamond4 0 0).map (fun r => levels r.v_output) = some [1, 2, 2, 3] ∧
        edge diamond4 1 3 = true ∧ edge diamond4 2 3 = true) ∧
      ∀ k st, bfs6_at diamond4 0 0 k = some st → bfs6_cond (bfs6_n diamond4) st = true →
        st.level = (k : Int) + 1 ∧
          ∀ i, st.q.x i ≠ none → (bfs6_body diamond4 st).v.x i = some st.level :=
  ⟨by decide,
    bfs6_stamp_writes_level diamond4 0 0 (by decide) (by decide) (by decide) (by decide)⟩

/-- C15 (counterexample): on the diamond graph from source 0, at the stamp step
of the second iteration node 1 holds an explicit entry in `q` and an explicit
entry (the value 0) in `v`. -/
theorem bfs6_patterns_overlap_at_stamp :
    (bfs6_at diamond4 0 0 1).map
        (fun st => (bfs6_cond (bfs6_n diamond4) st, st.q.x 1, st.v.x 1))
      = some (true, some true, some 0) := by
  decide

/-- C15 (amended): on a valid input, at every execution of the stamp step `v`
holds an explicit entry at every index, and every index in the pattern of `q`
holds the explicit value 0 in `v`: the pattern of `q` is disjoint from the set
of stamped nodes, not from the pattern of `v`. -/
theorem bfs6_frontier_unstamped_at_stamp (A : GrB_Matrix) (s : Nat) (level0 : Int)
    (hsq : isSquare A) (hn : A.nrows ≤ GxB_INDEX_MAX) (hz : noExplicitZero A)
    (hs : s < A.nrows) :
    ∀ k st, bfs6_at A s level0 k = some st → bfs6_cond (bfs6_n A) st = true →
      (∀ i, i < A.nrows → st.v.x i ≠ none) ∧
        ∀ i, st.q.x i ≠ none → st.v.x i = some 0 ∧ isStamped st.v i = false := by
  intro k st hat _
  have inv := bfs6_at_inv A s level0 hsq hs hz hn k st hat
  constructor
  · intro i hi
    rcases Inv_v_cases A s k st inv i hi with h0 | ⟨d, _, _, hv⟩
    · rw [h0]; simp
    · rw [hv]; simp
  · intro i hne
    have hd : isDist A s i k := by
      by_contra hd
      exact hne (inv.nofront i hd)
    have hv := inv.unstamped i (hasWalk_lt A s hsq hs k i hd.1) hd.2
    exact ⟨hv, by simp [isStamped, hv]⟩

/-- C15 (witness): the diamond graph from source 0. -/
theorem bfs6_frontier_unstamped_at_stamp_witness :
    (isSquare diamond4 ∧ noExplicitZero diamond4) ∧
      ∀ k st, bfs6_at diamond4 0 0 k = some st → bfs6_cond (bfs6_n diamond4) st = true →
        (∀ i, i < diamond4.nrows → st.v.x i ≠ none) ∧
          ∀ i, st.q.x i ≠ none → st.v.x i = some 0 ∧ isStamped st.v i = false :=
  ⟨by decide,
    bfs6_frontier_unstamped_at_stamp diamond4 0 0 (by decide) (by decide) (by decide)
      (by decide)⟩

/-- C16: on a valid input, in every iteration of the loop `successor` is the
logical-or reduction of the new `q`, every entry of the new `q` is `true`, and
the reduction is `false` exactly when the pattern of `q` is empty, which is
exactly when no node lies at the next distance from `s`. -/
theorem bfs6_reduce_false_iff_empty (A : GrB_Matrix) (s : Nat) (level0 : Int)
    (hsq : isSquare A) (hn : A.nrows ≤ GxB_INDEX_MAX) (hz : noExplicitZero A)
    (hs : s < A.nrows) :
    ∀ k st, bfs6_at A s level0 k = some st → bfs6_cond (bfs6_n A) st = true →
      (bfs6_body A st).successor = GrB_Vector_reduce_BOOL Lor (bfs6_body A st).q ∧
      (∀ i b, (bfs6_body A st).q.x i = some b → b = true) ∧
      ((bfs6_body A st).successor = false ↔ ∀ i, (bfs6_body A st).q.x i = none) ∧
      ((bfs6_body A st).successor = false ↔ ¬ ∃ i, isDist A s i (k + 1)) := by
  intro k st hat hc
  rw [bfs6_n_eq] at hc
  have inv := bfs6_at_inv A s level0 hsq hs hz hn k st hat
  have inv1 := Inv_step A s hsq hs hz hn k st inv hc
  have hfalse : (bfs6_body A st).successor = false ↔ ¬ ∃ i, isDist A s i (k + 1) := by
    rw [← inv1.succ]
    simp
  refine ⟨rfl, ?_, ?_, hfalse⟩
  · intro i b hb
    by_cases hd : isDist A s i (k + 1)
    · have := inv1.front i hd
      rw [hb] at this
      exact Option.some.inj this
    · have := inv1.nofront i hd
      rw [hb] at this
      cases this
  · rw [hfalse]
    constructor
    · intro hno i
      exact inv1.nofront i (fun hd => hno ⟨i, hd⟩)
    · rintro hall ⟨i, hd⟩
      have := inv1.front i hd
      rw [hall i] at this
      cases this

/-- C16 (witness): the edge 0 -> 1 on four nodes from source 0; the second
iteration finds no new node and the reduction gives `false`. -/
theorem bfs6_reduce_false_iff_empty_witness :
    ((bfs6_at oneEdge4 0 0 2).map (fun st => (st.successor, st.q.toList))
        = some (false, [none, none, none, none]) ∧
      (bfs6_at oneEdge4 0 0 3).map (fun st => st.iters) = none) ∧
      ∀ k st, bfs6_at oneEdge4 0 0 k = some st → bfs6_cond (bfs6_n oneEdge4) st = true →
        (bfs6_body oneEdge4 st).successor
            = GrB_Vector_reduce_BOOL Lor (bfs6_body oneEdge4 st).q ∧
        (∀ i b, (bfs6_body oneEdge4 st).q.x i = some b → b = true) ∧
        ((bfs6_body oneEdge4 st).successor = false ↔
          ∀ i, (bfs6_body oneEdge4 st).q.x i = none) ∧
        ((bfs6_body oneEdge4 st).successor = false ↔ ¬ ∃ i, isDist oneEdge4 0 i (k + 1)) :=
  ⟨by decide,
    bfs6_reduce_false_iff_empty oneEdge4 0 0 (by decide) (by decide) (by decide)
      (by decide)⟩

/-! ## Explicit zeros, the level counter, the final step -/

/-- C17: there is a matrix with an explicit zero (entries `A (0,1) = 1` and
`A (0,2) = 0`) and a source (0) for which `bfs6` returns `GrB_SUCCESS` and the
levels `[1, 2, 2]`, although node 2 is unreachable in the graph of the nonzero
entries, whose levels are `[1, 2, 0]`. -/
theorem bfs6_explicit_zero_wrong_levels :
    ∃ A s, A.x 0 1 = some 1 ∧ A.x 0 2 = some 0 ∧ s = 0 ∧ ¬ noExplicitZero A ∧
      ∃ r, bfs6 A s 0 = some r ∧ r.info = .GrB_SUCCESS ∧
        levels r.v_output = [1, 2, 2] ∧ ¬ reachable (dropZeros A) s 2 ∧
        (bfs6 (dropZeros A) s 0).map (fun r => levels r.v_output) = some [1, 2, 0] := by
  have hrun : (bfs6 zeroEntry3 0 0).map (fun r => (r.info, levels r.v_output))
      = some (.GrB_SUCCESS, [1, 2, 2]) := by decide
  have hlt := hasWalk_lt (dropZeros zeroEntry3) 0 (by decide) (by decide)
  have h2 : ∀ j, hasWalk (dropZeros zeroEntry3) 0 2 j = false := by
    intro j
    by_cases hj : j < 3
    · revert j
      decide
    · by_contra hc
      exact hj (hlt 2 j (by simpa using hc))
  have hunreach : ¬ reachable (dropZeros zeroEntry3) 0 2 := by
    rintro ⟨k, hk⟩
    have hk2 : k < 2 := by
      by_contra hge
      rw [hasWalk_dead (dropZeros zeroEntry3) 0 2 h2 k (by omega) 2] at hk
      cases hk
    revert hk
    revert k hk2
    decide
  refine ⟨zeroEntry3, 0, by decide, by decide, rfl, by decide, ?_⟩
  cases hb : bfs6 zeroEntry3 0 0 with
  | none =>
    rw [hb] at hrun
    cases hrun
  | some r =>
    rw [hb] at hrun
    simp only [Option.map_some', Option.some.injEq, Prod.mk.injEq] at hrun
    exact ⟨r, rfl, hrun.1, hrun.2, hunreach, by decide⟩

/-- C18 (counterexample): a call of `bfs6` on the diamond graph that starts
with the level counter at 0 leaves it at 4. -/
theorem bfs6_changes_level_counter :
    (bfs6 diamond4 0 0).map (fun r => (r.level, decide (r.level = 0))) = some (4, false) := by
  decide

/-- C18 (amended): the level counter is state outside the call, which `bfs6`
overwrites; after a call it holds 1 plus the number of executed loop bodies
(as an `int32_t`), whatever it held before. -/
theorem bfs6_level_counter_after_call (A : GrB_Matrix) (s : Nat) (level0 : Int)
    (hn : A.nrows ≤ GxB_INDEX_MAX) :
    ∃ st r, bfs6_exit A s level0 = some st ∧ bfs6 A s level0 = some r ∧
      r.level = wrap32 ((st.iters : Int) + 1) := by
  obtain ⟨st, t, hex, c, _⟩ := bfs6_exit_count A s level0 hn
  refine ⟨st, _, hex, bfs6_of_exit A s level0 st hex, ?_⟩
  show st.level = _
  rw [c.lev, c.it]

/-- C18 (witness): the diamond graph, three bodies, counter 4 after the call. -/
theorem bfs6_level_counter_after_call_witness :
    ((bfs6_exit diamond4 0 0).map (fun st => st.iters) = some 3 ∧ wrap32 (3 + 1) = 4) ∧
      ∃ st r, bfs6_exit diamond4 0 0 = some st ∧ bfs6 diamond4 0 0 = some r ∧
        r.level = wrap32 ((st.iters : Int) + 1) :=
  ⟨by decide, bfs6_level_counter_after_call diamond4 0 0 (by decide)⟩

/-- The final step inside the range of `int32_t`: on an n x n matrix without
explicit zeros, with n at most `INT32_MAX` and a source `s < n`, the final step deletes the entries of
`v` whose value is 0 and keeps every nonzero entry with its value, and the
pattern of the returned vector is exactly the set of nodes reachable from `s`. -/
theorem bfs6_result_pattern_reachable (A : GrB_Matrix) (s : Nat) (level0 : Int)
    (hsq : isSquare A) (hn32 : (A.nrows : Int) ≤ INT32_MAX) (hz : noExplicitZero A)
    (hs : s < A.nrows) :
    ∃ st r, bfs6_exit A s level0 = some st ∧ bfs6 A s level0 = some r ∧
      (∀ i, i < A.nrows →
        (st.v.x i = some 0 → r.v_output.x i = none) ∧
        (∀ z, z ≠ 0 → st.v.x i = some z → r.v_output.x i = some z)) ∧
      ∀ i, r.v_output.x i ≠ none ↔ reachable A s i := by
  have hn : A.nrows ≤ GxB_INDEX_MAX := by
    unfold INT32_MAX at hn32
    unfold GxB_INDEX_MAX
    omega
  obtain ⟨st, t, hex, inv, hc⟩ := bfs6_exit_inv A s level0 hsq hs hz hn
  refine ⟨st, _, hex, bfs6_of_exit A s level0 st hex, ?_, ?_⟩
  · intro i hi
    constructor
    · intro h0
      simp [finish_x, inv.vn, hi, h0]
    · intro z hz0 hv
      simp [finish_x, inv.vn, hi, hv, hz0]
  · intro i
    constructor
    · intro hne
      by_cases hi : i < A.nrows
      · rcases Inv_v_cases A s t st inv i hi with h0 | ⟨d, _, hd, _⟩
        · simp [finish_x, inv.vn, hi, h0] at hne
        · exact ⟨d, hd.1⟩
      · simp [finish_x, inv.vn, hi] at hne
    · rintro ⟨k, hk⟩
      obtain ⟨d, _, hd⟩ := exists_isDist A s k i hk
      have hdt := Inv_exit_complete A s hsq hs hn32 t st inv hc i d hd
      have hi : i < A.nrows := hasWalk_lt A s hsq hs d i hd.1
      have hne : ¬ ((d : Int) + 1 = 0) := by omega
      simp [finish_x, inv.vn, hi, inv.stamped i d hdt hd, hne]

/-- The edge 0 -> 1 on four nodes from source 0; the returned
vector has entries at 0 and 1 only. -/
theorem bfs6_result_pattern_reachable_witness :
    ((bfs6_exit oneEdge4 0 0).map (fun st => st.v.toList)
        = some [some 1, some 2, some 0, some 0] ∧
      (bfs6 oneEdge4 0 0).map (fun r => r.v_output.toList)
        = some [some 1, some 2, none, none]) ∧
      ∃ st r, bfs6_exit oneEdge4 0 0 = some st ∧ bfs6 oneEdge4 0 0 = some r ∧
        (∀ i, i < oneEdge4.nrows →
          (st.v.x i = some 0 → r.v_output.x i = none) ∧
          (∀ z, z ≠ 0 → st.v.x i = some z → r.v_output.x i = some z)) ∧
        ∀ i, r.v_output.x i ≠ none ↔ reachable oneEdge4 0 i :=
  ⟨by decide,
    bfs6_result_pattern_reachable oneEdge4 0 0 (by decide) (by decide) (by decide)
      (by decide)⟩

/-- C20: for every matrix, the assign of line 65 gives `v` an explicit 0 at
every position, so the number of entries that line 66 stores in `n` is the
number of rows of `A`; `q` is created with that length and the loop runs with
that bound. -/
theorem bfs6_n_after_nvals (A : GrB_Matrix) :
    (bfs6_v0 A).n = GrB_Matrix_nrows A ∧
      (∀ i, i < GrB_Matrix_nrows A → (bfs6_v0 A).x i = some 0) ∧
      GrB_Vector_nvals (bfs6_v0 A) = GrB_Matrix_nrows A ∧
      bfs6_n A = GrB_Matrix_nrows A ∧
      ∀ s level0, (bfs6_setup A s level0).q.n = GrB_Matrix_nrows A ∧
        bfs6_exit A s level0 = bfs6_loop A (GrB_Matrix_nrows A) (GrB_Matrix_nrows A)
          (bfs6_for_init (bfs6_setup A s level0)) := by
  refine ⟨bfs6_v0_n A, ?_, bfs6_n_eq A, bfs6_n_eq A, ?_⟩
  · intro i hi
    rw [bfs6_v0_x]
    simp only [GrB_Matrix_nrows] at hi
    simp [hi]
  · intro s level0
    refine ⟨setup_q_n A s level0, ?_⟩
    unfold bfs6_exit
    simp only [bfs6_n_eq, GrB_Matrix_nrows]

/-! ## The level counter at the end of its range -/

end GraphOne
